import Mathlib

/-!
# Collatz step calculator: block-transform engine

A shallow embedding of `fastest_collatz.cpp`.  Machine words are natural numbers
reduced modulo `2^64` or `2^128` wherever the C code computes in `uint64_t` or
`unsigned __int128`; GMP integers are unbounded natural numbers.  Every C function
that loops or recurses takes a `fuel` argument and answers `none` when the fuel is
used up, so that a run of the C code that never returns is a model that is `none`
for every fuel.  A `while` loop is one recursive call per iteration, the block's step
count being added to `count` (a `uint64_t`) on return; a call passes the fuel it has
left to the functions it calls.  The compile-time switch `STRIP_MSBITS` is the Boolean
`strip`; `USE_TABLES` is defined, as in the source.
-/

namespace Collatz

/-! ## Specification side: the Collatz map and direct simulation -/

/-- The Collatz map `T`: halve an even number, send an odd `m` to `3m+1`. -/
def T (m : Nat) : Nat := if m % 2 = 0 then m / 2 else 3 * m + 1

/-- The reduction step `S`: halve an even number, send an odd `y` to `(3y+1)/2`. -/
def S (y : Nat) : Nat := if y % 2 = 0 then y / 2 else (3 * y + 1) / 2

/-- Iterate `S` a given number of times. -/
def Siter : Nat → Nat → Nat
  | 0, y => y
  | k + 1, y => Siter k (S y)

/-- Number of odd values among `y, S y, ..., S^(k-1) y`. -/
def oddCount : Nat → Nat → Nat
  | 0, _ => 0
  | k + 1, y => y % 2 + oddCount k (S y)

/-- Direct simulation: apply `T` until `1` is reached and count the applications.
The answer is `none` when `1` is not reached within `fuel` applications. -/
def naive_steps : Nat → Nat → Option Nat
  | 0, n => if n = 1 then some 0 else none
  | fuel + 1, n => if n = 1 then some 0 else (naive_steps fuel (T n)).map (· + 1)

/-- The relation "`n` reaches `1` after exactly `c` applications of `T`". -/
inductive StepsTo : Nat → Nat → Prop
  | one : StepsTo 1 0
  | step (n c : Nat) : n ≠ 1 → StepsTo (T n) c → StepsTo n (c + 1)

/-- The same relation with every value visited before `1` below the bound `B`. -/
inductive StepsBelow (B : Nat) : Nat → Nat → Prop
  | one : StepsBelow B 1 0
  | step (n c : Nat) : n ≠ 1 → n < B → StepsBelow B (T n) c → StepsBelow B n (c + 1)

/-! ## Machine words and the intrinsics of the source -/

/-- Truncation to `uint64_t`. -/
def u64 (x : Nat) : Nat := x % 2 ^ 64

/-- Truncation to `unsigned __int128`. -/
def u128 (x : Nat) : Nat := x % 2 ^ 128

/-- Bit length with explicit fuel (`fuel ≥ n` is always enough). -/
def bitlenAux : Nat → Nat → Nat
  | 0, _ => 0
  | fuel + 1, n => if n = 0 then 0 else bitlenAux fuel (n / 2) + 1

/-- Number of significant bits of `n` (`0` for `n = 0`). -/
def bitlen (n : Nat) : Nat := bitlenAux n n

/-- The intrinsic `my_mul64`: the 128-bit product `a * b` as `(lo, hi)`. -/
def my_mul64 (a b : Nat) : Nat × Nat := (u64 (a * b), u64 (a * b / 2 ^ 64))

/-- The intrinsic `my_add64`: `a + b + c` as `(carry, out)`. -/
def my_add64 (c a b : Nat) : Nat × Nat := ((a + b + c) / 2 ^ 64, u64 (a + b + c))

/-- The intrinsic `my_shr64`: the double word `a::b` shifted right by `c` (the `shrd`/`shr` pair
takes the count modulo 64); the result is the new `(a, b)`. -/
def my_shr64 (a b c : Nat) : Nat × Nat :=
  (a >>> (c % 64), u64 ((a * 2 ^ 64 + b) >>> (c % 64)))

/-- The function `bzh64`: keep the low `pos` bits. -/
def bzh64 (n pos : Nat) : Nat := n &&& ((1 <<< pos) - 1)

/-- The function `bzh128`: keep the low `pos` bits of a 128-bit value. -/
def bzh128 (n pos : Nat) : Nat :=
  if pos ≥ 64 then
    let t := bzh64 (u64 (n >>> 64)) (pos - 64)
    (n &&& (2 ^ 64 - 1)) ||| (t <<< 64)
  else bzh64 (u64 n) pos

/-- The function `my_clz`: leading zeros of a 64-bit word (`64` for `0`). -/
def my_clz (n : Nat) : Nat := 64 - bitlen n

/-- The function `clz64`: leading zeros of a 64-bit word. -/
def clz64 (t : Nat) : Nat := my_clz t

/-- The function `clz128`: leading zeros of a 128-bit value. -/
def clz128 (t : Nat) : Nat :=
  let hi := u64 (t >>> 64)
  if hi ≠ 0 then my_clz hi
  else
    let lo := u64 t
    64 + my_clz lo

/-- The GMP call `mpz_sizeinbase(n, 2)`: the bit length, and `1` for `n = 0`. -/
def mpz_sizeinbase2 (n : Nat) : Nat := if n = 0 then 1 else bitlen n

/-- The GMP call `mpz_get_ui`: the least significant limb. -/
def mpz_get_ui (n : Nat) : Nat := u64 n

/-- The function `mpz_get_ui128`: the two least significant limbs. -/
def mpz_get_ui128 (n : Nat) : Nat := u128 n

/-- Modelled from the spec: `mpz_mullo(r, k, a, b)` is not part of the sources at hand;
it is taken to store in `r` the low `k` bits of the product `a * b`. -/
def mpz_mullo (k a b : Nat) : Nat := (a * b) % 2 ^ k

def THRESHOLD64 : Nat := 20

def THRESHOLD128 : Nat := 40

/-! ## Block transforms -/

/-- Result of a block computation: the additive term `d`, the multiplier `cc` and the
returned number `ans` of elementary steps. -/
structure Block where
  d : Nat
  cc : Nat
  ans : Nat
  deriving DecidableEq, Repr

def prec_c2 : List Nat := [1, 3, 3, 9]
def prec_d2 : List Nat := [0, 1, 2, 5]
def prec_a2 : List Nat := [2, 3, 3, 4]

def prec_c3 : List Nat := [1, 9, 3, 9, 3, 3, 9, 27]
def prec_d3 : List Nat := [0, 7, 2, 5, 4, 1, 10, 19]
def prec_a3 : List Nat := [3, 5, 4, 5, 4, 4, 5, 6]

def prec_c4 : List Nat := [1, 9, 9, 9, 3, 3, 9, 27, 3, 27, 3, 27, 9, 9, 27, 81]
def prec_d4 : List Nat := [0, 7, 14, 5, 4, 1, 10, 19, 8, 29, 2, 23, 20, 11, 38, 65]
def prec_a4 : List Nat := [4, 6, 6, 6, 5, 5, 6, 7, 5, 7, 5, 7, 6, 6, 7, 8]

def prec_c5 : List Nat :=
  [1, 27, 9, 9, 9, 9, 9, 81, 3, 81, 3, 27, 9, 9, 27, 81, 3, 9, 27, 27, 3, 3, 27, 27, 9, 27, 9,
   81, 27, 27, 81, 243]
def prec_d5 : List Nat :=
  [0, 37, 14, 5, 28, 19, 10, 73, 8, 103, 2, 23, 20, 11, 38, 65, 16, 7, 58, 31, 4, 1, 46, 19, 40,
   29, 22, 85, 76, 49, 130, 211]
def prec_a5 : List Nat :=
  [5, 8, 7, 7, 7, 7, 7, 9, 6, 9, 6, 8, 7, 7, 8, 9, 6, 7, 8, 8, 6, 6, 8, 8, 7, 8, 7, 9, 8, 8, 9,
   10]

def prec_d6 : List Nat :=
  [0, 37, 74, 47, 28, 19, 10, 73, 56, 103, 38, 23, 20, 11, 146, 65, 16, 53, 206, 125, 4, 1, 46,
   19, 40, 29, 22, 287, 76, 49, 130, 211, 32, 143, 14, 5, 116, 89, 62, 251, 8, 341, 2, 101, 92,
   65, 38, 227, 80, 7, 58, 31, 44, 35, 170, 89, 152, 119, 98, 85, 260, 179, 422, 665]
def prec_c6 : List Nat :=
  [1, 27, 27, 27, 9, 9, 9, 81, 9, 81, 9, 27, 9, 9, 81, 81, 3, 27, 81, 81, 3, 3, 27, 27, 9, 27, 9,
   243, 27, 27, 81, 243, 3, 81, 9, 9, 27, 27, 27, 243, 3, 243, 3, 81, 27, 27, 27, 243, 9, 9, 27,
   27, 9, 9, 81, 81, 27, 81, 27, 81, 81, 81, 243, 729]
def prec_a6 : List Nat :=
  [6, 9, 9, 9, 8, 8, 8, 10, 8, 10, 8, 9, 8, 8, 10, 10, 7, 9, 10, 10, 7, 7, 9, 9, 8, 9, 8, 11, 9,
   9, 10, 11, 7, 10, 8, 8, 9, 9, 9, 11, 7, 11, 7, 10, 9, 9, 9, 11, 8, 8, 9, 9, 8, 8, 10, 10, 9,
   10, 9, 10, 10, 10, 11, 12]

def prec_d7 : List Nat :=
  [0, 175, 74, 47, 148, 121, 94, 73, 56, 373, 38, 133, 20, 11, 146, 65, 112, 53, 206, 125, 76,
   67, 46, 19, 40, 151, 22, 925, 292, 211, 130, 697, 32, 143, 106, 79, 412, 331, 250, 251, 8,
   1087, 2, 101, 92, 65, 38, 227, 80, 85, 58, 31, 44, 35, 574, 331, 152, 119, 98, 85, 260, 179,
   422, 665, 64, 37, 286, 205, 28, 19, 10, 283, 232, 103, 178, 23, 124, 97, 502, 259, 16, 223,
   682, 439, 4, 1, 202, 121, 184, 29, 130, 287, 76, 49, 454, 211, 160, 493, 14, 5, 116, 89, 62,
   817, 88, 341, 70, 367, 340, 259, 178, 745, 304, 7, 238, 157, 196, 169, 170, 89, 520, 421,
   358, 319, 844, 601, 1330, 2059]
def prec_c7 : List Nat :=
  [1, 81, 27, 27, 27, 27, 27, 81, 9, 243, 9, 81, 9, 9, 81, 81, 9, 27, 81, 81, 9, 9, 27, 27, 9,
   81, 9, 729, 81, 81, 81, 729, 3, 81, 27, 27, 81, 81, 81, 243, 3, 729, 3, 81, 27, 27, 27, 243,
   9, 27, 27, 27, 9, 9, 243, 243, 27, 81, 27, 81, 81, 81, 243, 729, 3, 27, 81, 81, 9, 9, 9, 243,
   27, 81, 27, 27, 27, 27, 243, 243, 3, 81, 243, 243, 3, 3, 81, 81, 27, 27, 27, 243, 27, 27,
   243, 243, 9, 243, 9, 9, 27, 27, 27, 729, 9, 243, 9, 243, 81, 81, 81, 729, 27, 9, 81, 81, 27,
   27, 81, 81, 81, 243, 81, 243, 243, 243, 729, 2187]
def prec_a7 : List Nat :=
  [7, 11, 10, 10, 10, 10, 10, 11, 9, 12, 9, 11, 9, 9, 11, 11, 9, 10, 11, 11, 9, 9, 10, 10, 9,
   11, 9, 13, 11, 11, 11, 13, 8, 11, 10, 10, 11, 11, 11, 12, 8, 13, 8, 11, 10, 10, 10, 12, 9,
   10, 10, 10, 9, 9, 12, 12, 10, 11, 10, 11, 11, 11, 12, 13, 8, 10, 11, 11, 9, 9, 9, 12, 10,
   11, 10, 10, 10, 10, 12, 12, 8, 11, 12, 12, 8, 8, 11, 11, 10, 10, 10, 12, 10, 10, 12, 12, 9,
   12, 9, 9, 10, 10, 10, 13, 9, 12, 9, 12, 11, 11, 11, 13, 10, 9, 11, 11, 10, 10, 11, 11, 11,
   12, 11, 12, 12, 12, 13, 14]

/-- Read the three precomputed tables of one block size at index `i`. -/
def table_block (pc pd pa : List Nat) (i : Nat) : Block :=
  ⟨pd.getD i 0, pc.getD i 0, pa.getD i 0⟩

/-- The function `helper64(n, &d, &cc, k)` with `USE_TABLES` defined: table look-up for
`2 ≤ k ≤ 7`, otherwise the split `k1 = k >> 1`, `k2 = k - k1` in `uint64_t`
arithmetic. -/
def helper64 (strip : Bool) : Nat → Nat → Nat → Option Block
  | 0, _, _ => none
  | fuel + 1, n, k =>
    if k = 2 then some (table_block prec_c2 prec_d2 prec_a2 (n &&& 3))
    else if k = 3 then some (table_block prec_c3 prec_d3 prec_a3 (n &&& 7))
    else if k = 4 then some (table_block prec_c4 prec_d4 prec_a4 (n &&& 15))
    else if k = 5 then some (table_block prec_c5 prec_d5 prec_a5 (n &&& 31))
    else if k = 6 then some (table_block prec_c6 prec_d6 prec_a6 (n &&& 63))
    else if k = 7 then some (table_block prec_c7 prec_d7 prec_a7 (n &&& 127))
    else
      let k1 := k >>> 1
      let cc2 := if strip then bzh64 n k1 else n
      match helper64 strip fuel cc2 k1 with
      | none => none
      | some b1 =>
        let n1 := u64 (n * b1.cc + b1.d) >>> k1
        let k2 := k - k1
        let n2 := if strip then bzh64 n1 k2 else n1
        match helper64 strip fuel n2 k2 with
        | none => none
        | some b2 =>
          some ⟨u64 (b1.d * b2.cc + u64 (b2.d <<< k1)), u64 (b1.cc * b2.cc),
            u64 (b1.ans + b2.ans)⟩

/-- The function `helper128(n, &d, &cc, k)`: closed forms for `k = 1` and `k = 0`, `helper64` on
the low word below `THRESHOLD64`, otherwise the split in 128-bit arithmetic with
64-bit results. -/
def helper128 (strip : Bool) : Nat → Nat → Nat → Option Block
  | 0, _, _ => none
  | fuel + 1, n, k =>
    if k < THRESHOLD64 then
      if k = 1 then
        let tn := n &&& 1
        some ⟨tn, 1 + 2 * tn, 1 + tn⟩
      else if k = 0 then some ⟨0, 1, 0⟩
      else helper64 strip fuel (u64 n) k
    else
      let k1 := k >>> 1
      let r := if strip then bzh128 n k1 else n
      match helper128 strip fuel r k1 with
      | none => none
      | some b1 =>
        let n1 := u128 (n * b1.cc + b1.d) >>> k1
        let k2 := k - k1
        let n2 := if strip then bzh128 n1 k2 else n1
        match helper128 strip fuel n2 k2 with
        | none => none
        | some b2 =>
          some ⟨u64 (b1.d * b2.cc + u64 (b2.d <<< k1)), u64 (b1.cc * b2.cc),
            u64 (b1.ans + b2.ans)⟩

/-- The GMP `helper(n, d, cc, k)`: below `THRESHOLD128` it hands the low words to
`helper64` / `helper128`, otherwise it splits in exact arithmetic. -/
def helper (strip : Bool) : Nat → Nat → Nat → Option Block
  | 0, _, _ => none
  | fuel + 1, n, k =>
    if k < THRESHOLD128 then
      if k < THRESHOLD64 then
        if k = 1 then
          let tn := mpz_get_ui n &&& 1
          some ⟨tn, 1 + 2 * tn, 1 + tn⟩
        else if k = 0 then some ⟨0, 1, 0⟩
        else helper64 strip fuel (mpz_get_ui n) k
      else helper128 strip fuel (mpz_get_ui128 n) k
    else
      let k1 := k >>> 1
      let k2 := k - k1
      match helper strip fuel (n % 2 ^ k1) k1 with
      | none => none
      | some b1 =>
        let n1 := ((mpz_mullo k n b1.cc + b1.d) / 2 ^ k1) % 2 ^ k2
        match helper strip fuel n1 k2 with
        | none => none
        | some b2 =>
          some ⟨b1.d * b2.cc + b2.d * 2 ^ k1, b1.cc * b2.cc, u64 (b1.ans + b2.ans)⟩

/-- The apply step of `collatz64`, `n = my_mul64(n, cc, &hi); hi += my_add64(0, n, d, &n);
my_shr64(&hi, &n, L2);`, giving the new `(hi, n)`. -/
def apply64 (n cc d L2 : Nat) : Nat × Nat :=
  let m := my_mul64 n cc
  let a := my_add64 0 m.1 d
  let hi := u64 (m.2 + a.1)
  my_shr64 hi a.2 L2

/-! ## Exact block transforms (reference) -/

/-- The exact block transform of `y` over `k` reduction steps, built one step at a
time from the parity of `y`: an odd step multiplies by three and adds one before the
halving, an even step only halves. -/
def blockOf : Nat → Nat → Block
  | 0, _ => ⟨0, 1, 0⟩
  | k + 1, y =>
    let b := blockOf k (S y)
    if y % 2 = 1 then ⟨2 * b.d + b.cc, 3 * b.cc, b.ans + 2⟩
    else ⟨2 * b.d, b.cc, b.ans + 1⟩

/-- A block with its additive term and multiplier truncated to 64 bits. -/
def truncBlock (b : Block) : Block := ⟨u64 b.d, u64 b.cc, b.ans⟩

/-! ## A checker for descent below the starting value

The three functions below are written with recursors and raw operations on numerals
so that they evaluate quickly by reduction. -/

/-- Does the `S`-trajectory of `m` fall below `n0` within `fuel` steps, all values
before that staying below `2^40`?  One round computes `S m`; the answer is `true`
when `S m < n0`, `false` when `2^40 ≤ S m` (or `S m = 0`), and otherwise the answer for
`S m` with one unit of fuel less. -/
def dropsBelow (n0 fuel m : Nat) : Bool :=
  Nat.rec (motive := fun _ => Nat → Bool) (fun _ => false)
    (fun _ ih m => Nat.rec (motive := fun _ => Bool) false
      (fun m1 _ =>
        Bool.rec
          (Bool.rec false (ih (Nat.succ m1)) (Nat.ble (Nat.succ (Nat.succ m1)) 1099511627776))
          true (Nat.ble (Nat.succ (Nat.succ m1)) n0))
      (Bool.rec (Nat.div (Nat.succ (Nat.mul 3 m)) 2) (Nat.div m 2) (Nat.beq (Nat.mod m 2) 0)))
    fuel m

/-- Check `dropsBelow` with fuel 150 for the `len` starting values `n, n + 4, n + 8, ...`. -/
def checkFrom (len n : Nat) : Bool :=
  Nat.rec (motive := fun _ => Nat → Bool) (fun _ => true)
    (fun _ ih n => Nat.rec (motive := fun _ => Bool) false
      (fun l _ => Bool.rec false (ih (Nat.add l 5)) (dropsBelow (Nat.succ l) 150 (Nat.succ l)))
      n)
    len n

/-- Check `cnt` consecutive chunks of 250 starting values each, the chunks being 1000
apart. -/
def checkChunks (cnt n : Nat) : Bool :=
  Nat.rec (motive := fun _ => Nat → Bool) (fun _ => true)
    (fun _ ih n => Nat.rec (motive := fun _ => Bool) false
      (fun l _ => Bool.rec false (ih (Nat.add l 1001)) (checkFrom 250 (Nat.succ l)))
      n)
    cnt n

/-! ## The three reduction loops -/

def table_a : List Nat := [0, 0, 1, 7, 2, 5, 8, 16]

mutual

/-- The entry point `fastest_collatz(n)`: the arbitrary-precision loop, then `collatz128`. -/
def fastest_collatz (strip : Bool) : Nat → Nat → Option Nat
  | 0, _ => none
  | fuel + 1, n =>
    let L2 := mpz_sizeinbase2 n >>> 1
    if L2 ≥ THRESHOLD128 then
      match helper strip fuel (n % 2 ^ L2) L2 with
      | none => none
      | some b =>
        (fastest_collatz strip fuel ((n * b.cc + b.d) / 2 ^ L2)).map (fun c => u64 (b.ans + c))
    else collatz128 strip fuel (mpz_get_ui128 n)

/-- The function `collatz128(n)`: the 128-bit loop; it leaves for `fastest_collatz` when a result
has 128 bits or more and ends in `collatz64`. -/
def collatz128 (strip : Bool) : Nat → Nat → Option Nat
  | 0, _ => none
  | fuel + 1, n =>
    let L2 := (128 - clz128 n) >>> 1
    if L2 ≥ THRESHOLD64 then
      let r := if strip then bzh128 n L2 else n
      match helper128 strip fuel r L2 with
      | none => none
      | some b =>
        if clz128 n + clz64 b.cc < 128 then
          let tn := (n * b.cc + b.d) / 2 ^ L2
          if mpz_sizeinbase2 tn ≥ 128 then
            (fastest_collatz strip fuel tn).map (fun c => u64 (b.ans + c))
          else
            (collatz128 strip fuel (mpz_get_ui128 tn)).map (fun c => u64 (b.ans + c))
        else
          (collatz128 strip fuel (u128 (u128 (n * b.cc) + b.d) >>> L2)).map
            (fun c => u64 (b.ans + c))
    else collatz64 strip fuel (u64 n)

/-- The function `collatz64(n)`: the 64-bit loop; it leaves for `collatz128` when the shifted
result does not fit 64 bits and ends with a look-up in `table_a`. -/
def collatz64 (strip : Bool) : Nat → Nat → Option Nat
  | 0, _ => none
  | fuel + 1, n =>
    if n > 7 then
      let L2 := (64 - clz64 n) >>> 1
      let r := if strip then bzh64 n L2 else n
      match helper64 strip fuel r L2 with
      | none => none
      | some b =>
        let s := apply64 n b.cc b.d L2
        if s.1 ≠ 0 then
          let t := (s.1 <<< 64) ||| s.2
          (collatz128 strip fuel t).map (fun c => u64 (b.ans + c))
        else
          (collatz64 strip fuel s.2).map (fun c => u64 (b.ans + c))
    else some (table_a.getD n 0)

end

/-! ## Elementary facts on `S`, `Siter`, `oddCount` -/

theorem S_even {y : Nat} (h : y % 2 = 0) : S y = y / 2 := by
  simp [S, h]

theorem S_odd {y : Nat} (h : y % 2 = 1) : S y = (3 * y + 1) / 2 := by
  simp [S, h]

theorem two_mul_S_even {y : Nat} (h : y % 2 = 0) : 2 * S y = y := by
  rw [S_even h]; omega

theorem two_mul_S_odd {y : Nat} (h : y % 2 = 1) : 2 * S y = 3 * y + 1 := by
  rw [S_odd h]; omega

theorem Siter_succ_right (k y : Nat) : Siter (k + 1) y = S (Siter k y) := by
  induction k generalizing y with
  | zero => rfl
  | succ k ih =>
    show Siter (k + 1) (S y) = S (Siter k (S y))
    exact ih (S y)

theorem Siter_add (k1 k2 y : Nat) : Siter (k1 + k2) y = Siter k2 (Siter k1 y) := by
  induction k1 generalizing y with
  | zero => simp [Siter]
  | succ k ih =>
    have : k + 1 + k2 = (k + k2) + 1 := by omega
    rw [this]
    show Siter (k + k2) (S y) = Siter k2 (Siter k (S y))
    exact ih (S y)

theorem oddCount_add (k1 k2 y : Nat) :
    oddCount (k1 + k2) y = oddCount k1 y + oddCount k2 (Siter k1 y) := by
  induction k1 generalizing y with
  | zero => simp [oddCount, Siter]
  | succ k ih =>
    have : k + 1 + k2 = (k + k2) + 1 := by omega
    rw [this]
    show y % 2 + oddCount (k + k2) (S y) = y % 2 + oddCount k (S y) + oddCount k2 (Siter k (S y))
    rw [ih (S y)]; omega

theorem oddCount_le (k y : Nat) : oddCount k y ≤ k := by
  induction k generalizing y with
  | zero => simp [oddCount]
  | succ k ih =>
    show y % 2 + oddCount k (S y) ≤ k + 1
    have := ih (S y)
    omega

/-- The step `S` respects congruence modulo a power of two, losing one bit. -/
theorem S_mod (k y : Nat) : S (y % 2 ^ (k + 1)) % 2 ^ k = S y % 2 ^ k := by
  have hp : 2 ^ (k + 1) = 2 * 2 ^ k := by rw [pow_succ]; ring
  have hpos : 0 < 2 ^ k := Nat.two_pow_pos k
  have hpar : (y % 2 ^ (k + 1)) % 2 = y % 2 := by
    rw [hp]; exact Nat.mod_mul_right_mod y 2 (2 ^ k)
  have hdec : y = 2 ^ (k + 1) * (y / 2 ^ (k + 1)) + y % 2 ^ (k + 1) := (Nat.div_add_mod y _).symm
  set q := y / 2 ^ (k + 1)
  set r := y % 2 ^ (k + 1)
  rcases Nat.mod_two_eq_zero_or_one y with h | h
  · have hr : r % 2 = 0 := by rw [hpar]; exact h
    rw [S_even h, S_even hr]
    have : y / 2 = 2 ^ k * q + r / 2 := by
      have e : y = 2 * (2 ^ k * q) + r := by rw [hdec, hp]; ring
      omega
    rw [this, Nat.mul_add_mod]
  · have hr : r % 2 = 1 := by rw [hpar]; exact h
    rw [S_odd h, S_odd hr]
    have : (3 * y + 1) / 2 = 2 ^ k * (3 * q) + (3 * r + 1) / 2 := by
      have e : 3 * y + 1 = 2 * (2 ^ k * (3 * q)) + (3 * r + 1) := by
        rw [hdec, hp]; ring
      rw [e]; omega
    rw [this, Nat.mul_add_mod]

theorem S_congr {k y z : Nat} (h : y % 2 ^ (k + 1) = z % 2 ^ (k + 1)) :
    S y % 2 ^ k = S z % 2 ^ k := by
  rw [← S_mod k y, ← S_mod k z, h]

theorem mod_two_of_mod_pow {k y z : Nat} (h : y % 2 ^ (k + 1) = z % 2 ^ (k + 1)) :
    y % 2 = z % 2 := by
  have hp : 2 ^ (k + 1) = 2 * 2 ^ k := by rw [pow_succ]; ring
  have h1 : (y % 2 ^ (k + 1)) % 2 = y % 2 := by rw [hp]; exact Nat.mod_mul_right_mod y 2 (2 ^ k)
  have h2 : (z % 2 ^ (k + 1)) % 2 = z % 2 := by rw [hp]; exact Nat.mod_mul_right_mod z 2 (2 ^ k)
  rw [← h1, ← h2, h]

/-! ## The exact block transform -/

theorem blockOf_congr {k y z : Nat} (h : y % 2 ^ k = z % 2 ^ k) : blockOf k y = blockOf k z := by
  induction k generalizing y z with
  | zero => rfl
  | succ k ih =>
    have hS := ih (S_congr h)
    have hp := mod_two_of_mod_pow h
    simp only [blockOf, hS, hp]

theorem blockOf_mod (k y : Nat) : blockOf k (y % 2 ^ k) = blockOf k y :=
  blockOf_congr (Nat.mod_mod _ _)

theorem blockOf_ans (k y : Nat) : (blockOf k y).ans = k + oddCount k y := by
  induction k generalizing y with
  | zero => rfl
  | succ k ih =>
    rcases Nat.mod_two_eq_zero_or_one y with h | h
    · simp only [blockOf, oddCount, h, ih (S y)]; simp; omega
    · simp only [blockOf, oddCount, h, ih (S y)]; simp; omega

theorem blockOf_cc (k y : Nat) : (blockOf k y).cc = 3 ^ oddCount k y := by
  induction k generalizing y with
  | zero => rfl
  | succ k ih =>
    rcases Nat.mod_two_eq_zero_or_one y with h | h
    · simp only [blockOf, oddCount, h, ih (S y)]; simp
    · simp only [blockOf, oddCount, h, ih (S y)]
      simp only [if_true]
      rw [pow_add]; ring

/-- The defining identity of a block: `cc * y + d = 2^k * S^k y`. -/
theorem blockOf_eq (k y : Nat) :
    (blockOf k y).cc * y + (blockOf k y).d = 2 ^ k * Siter k y := by
  induction k generalizing y with
  | zero => simp [blockOf, Siter]
  | succ k ih =>
    have hS := ih (S y)
    rcases Nat.mod_two_eq_zero_or_one y with h | h
    · have h2 := two_mul_S_even h
      simp only [blockOf, Siter, h]
      simp only [Nat.zero_ne_one, if_false]
      calc (blockOf k (S y)).cc * y + 2 * (blockOf k (S y)).d
          = (blockOf k (S y)).cc * (2 * S y) + 2 * (blockOf k (S y)).d := by rw [h2]
        _ = 2 * ((blockOf k (S y)).cc * S y + (blockOf k (S y)).d) := by ring
        _ = 2 ^ (k + 1) * Siter k (S y) := by rw [hS]; ring
    · have h2 := two_mul_S_odd h
      simp only [blockOf, Siter, h]
      simp only [if_true]
      calc 3 * (blockOf k (S y)).cc * y + (2 * (blockOf k (S y)).d + (blockOf k (S y)).cc)
          = (blockOf k (S y)).cc * (3 * y + 1) + 2 * (blockOf k (S y)).d := by ring
        _ = (blockOf k (S y)).cc * (2 * S y) + 2 * (blockOf k (S y)).d := by rw [h2]
        _ = 2 * ((blockOf k (S y)).cc * S y + (blockOf k (S y)).d) := by ring
        _ = 2 ^ (k + 1) * Siter k (S y) := by rw [hS]; ring

theorem blockOf_cc_le (k y : Nat) : (blockOf k y).cc ≤ 3 ^ k := by
  rw [blockOf_cc]
  exact Nat.pow_le_pow_right (by norm_num) (oddCount_le k y)

theorem blockOf_cc_pos (k y : Nat) : 0 < (blockOf k y).cc := by
  rw [blockOf_cc]; exact pow_pos (by norm_num) _

theorem blockOf_d_le (k y : Nat) : (blockOf k y).d + 2 ^ k ≤ 3 ^ k := by
  induction k generalizing y with
  | zero => simp [blockOf]
  | succ k ih =>
    have hd := ih (S y)
    have hc := blockOf_cc_le k (S y)
    have e2 : 2 ^ (k + 1) = 2 * 2 ^ k := by rw [pow_succ]; ring
    have e3 : 3 ^ (k + 1) = 3 * 3 ^ k := by rw [pow_succ]; ring
    rcases Nat.mod_two_eq_zero_or_one y with h | h
    · simp only [blockOf, h]; simp only [Nat.zero_ne_one, if_false]; omega
    · simp only [blockOf, h]; simp only [if_true]; omega

theorem Siter_eq_div (k y : Nat) :
    Siter k y = ((blockOf k y).cc * y + (blockOf k y).d) / 2 ^ k := by
  rw [blockOf_eq, Nat.mul_div_cancel_left _ (Nat.two_pow_pos k)]

/-- Composition of two consecutive blocks. -/
theorem blockOf_add (k1 k2 y : Nat) :
    blockOf (k1 + k2) y =
      ⟨(blockOf k1 y).d * (blockOf k2 (Siter k1 y)).cc + (blockOf k2 (Siter k1 y)).d * 2 ^ k1,
       (blockOf k1 y).cc * (blockOf k2 (Siter k1 y)).cc,
       (blockOf k1 y).ans + (blockOf k2 (Siter k1 y)).ans⟩ := by
  induction k1 generalizing y with
  | zero => simp [blockOf, Siter]
  | succ k ih =>
    have e : k + 1 + k2 = (k + k2) + 1 := by omega
    rw [e]
    have hS := ih (S y)
    rcases Nat.mod_two_eq_zero_or_one y with h | h
    · simp only [blockOf, Siter, h, hS]
      simp only [Nat.zero_ne_one, if_false, Block.mk.injEq]
      refine ⟨?_, trivial, ?_⟩
      · rw [pow_succ]; ring
      · ring
    · simp only [blockOf, Siter, h, hS]
      simp only [if_true, Block.mk.injEq]
      refine ⟨?_, ?_, ?_⟩
      · rw [pow_succ]; ring
      · ring
      · ring

/-! ## Bit operations as arithmetic -/

theorem bzh64_eq_mod (n pos : Nat) : bzh64 n pos = n % 2 ^ pos := by
  unfold bzh64
  rw [Nat.one_shiftLeft, Nat.and_pow_two_sub_one_eq_mod]

theorem and_mask_eq_mod (n k m : Nat) (hm : m = 2 ^ k - 1) : n &&& m = n % 2 ^ k := by
  subst hm; exact Nat.and_pow_two_sub_one_eq_mod n k

/-- Bits `k1 .. k1+k2-1` of a value survive a reduction modulo `2^w` when `k1 + k2 ≤ w`. -/
theorem mod_div_mod (X w k1 k2 : Nat) (h : k1 + k2 ≤ w) :
    (X % 2 ^ w / 2 ^ k1) % 2 ^ k2 = (X / 2 ^ k1) % 2 ^ k2 := by
  have hw : 2 ^ w = 2 ^ k1 * 2 ^ (w - k1) := by
    rw [← pow_add]; congr 1; omega
  rw [hw, Nat.mod_mul_right_div_self]
  apply Nat.mod_mod_of_dvd
  exact pow_dvd_pow 2 (by omega)

/-! ## The tables are exact blocks -/

theorem table2_eq : ∀ i, i < 4 → table_block prec_c2 prec_d2 prec_a2 i = blockOf 2 i := by
  decide!

theorem table3_eq : ∀ i, i < 8 → table_block prec_c3 prec_d3 prec_a3 i = blockOf 3 i := by
  decide!

theorem table4_eq : ∀ i, i < 16 → table_block prec_c4 prec_d4 prec_a4 i = blockOf 4 i := by
  decide!

theorem table5_eq : ∀ i, i < 32 → table_block prec_c5 prec_d5 prec_a5 i = blockOf 5 i := by
  decide!

theorem table6_eq : ∀ i, i < 64 → table_block prec_c6 prec_d6 prec_a6 i = blockOf 6 i := by
  decide!

theorem table7_eq : ∀ i, i < 128 → table_block prec_c7 prec_d7 prec_a7 i = blockOf 7 i := by
  decide!

theorem three_pow_40_lt : 3 ^ 40 < 2 ^ 64 := by norm_num

theorem u64_of_lt {x : Nat} (h : x < 2 ^ 64) : u64 x = x := Nat.mod_eq_of_lt h

theorem u64_add_u64 (a b : Nat) : u64 (a + u64 b) = u64 (a + b) := by
  unfold u64; exact Nat.add_mod_mod a b (2 ^ 64)

/-- The combination of two exact sub-blocks, as `helper64` and `helper128` form it
in 64-bit arithmetic, is the truncation of the exact block of the whole size. -/
theorem combine_trunc (k1 k2 y : Nat) :
    (⟨u64 ((blockOf k1 y).d * (blockOf k2 (Siter k1 y)).cc
        + u64 ((blockOf k2 (Siter k1 y)).d <<< k1)),
      u64 ((blockOf k1 y).cc * (blockOf k2 (Siter k1 y)).cc),
      u64 ((blockOf k1 y).ans + (blockOf k2 (Siter k1 y)).ans)⟩ : Block)
      = ⟨u64 (blockOf (k1 + k2) y).d, u64 (blockOf (k1 + k2) y).cc,
          u64 (blockOf (k1 + k2) y).ans⟩ := by
  rw [blockOf_add k1 k2 y, u64_add_u64, Nat.shiftLeft_eq]

theorem blockOf_lt (k y : Nat) (hk : k ≤ 40) :
    (blockOf k y).d < 2 ^ 64 ∧ (blockOf k y).cc < 2 ^ 64 ∧ (blockOf k y).ans < 2 ^ 64 := by
  have h3 : 3 ^ k ≤ 3 ^ 40 := Nat.pow_le_pow_right (by norm_num) hk
  have hd := blockOf_d_le k y
  have hc := blockOf_cc_le k y
  have ha := blockOf_ans k y
  have ho := oddCount_le k y
  have := three_pow_40_lt
  have hd' : (blockOf k y).d ≤ 3 ^ k := le_trans (Nat.le_add_right _ _) hd
  refine ⟨by omega, by omega, ?_⟩
  have : (2 : Nat) ^ 64 = 18446744073709551616 := by norm_num
  omega

theorem u64_block (k y : Nat) (hk : k ≤ 40) :
    (⟨u64 (blockOf k y).d, u64 (blockOf k y).cc, u64 (blockOf k y).ans⟩ : Block) = blockOf k y := by
  obtain ⟨hd, hc, ha⟩ := blockOf_lt k y hk
  rw [u64_of_lt hd, u64_of_lt hc, u64_of_lt ha]

/-- The value passed to the second sub-call has the low bits of `S^k1 n`. -/
theorem second_arg_mod (w n k1 k2 : Nat) (h : k1 + k2 ≤ w) :
    (((n * (blockOf k1 n).cc + (blockOf k1 n).d) % 2 ^ w) >>> k1) % 2 ^ k2
      = Siter k1 n % 2 ^ k2 := by
  rw [Nat.shiftRight_eq_div_pow, mod_div_mod _ _ _ _ h, Siter_eq_div, Nat.mul_comm n]

/-- A table look-up at the masked index is the exact block once the table is. -/
theorem table_case (pc pd pa : List Nat) (k m n : Nat) (hm : m = 2 ^ k - 1)
    (ht : ∀ i, i < 2 ^ k → table_block pc pd pa i = blockOf k i) :
    some (table_block pc pd pa (n &&& m)) = some (blockOf k n) := by
  rw [and_mask_eq_mod n k m hm, ht _ (Nat.mod_lt n (Nat.two_pow_pos k)), blockOf_mod]

/-- Below 41 bits `helper64` returns the exact block, for either setting of
`STRIP_MSBITS`, once the fuel covers the block size. -/
theorem helper64_eq_blockOf (strip : Bool) :
    ∀ k, 2 ≤ k → k ≤ 40 → ∀ fuel n, k ≤ fuel →
      helper64 strip fuel n k = some (blockOf k n) := by
  intro k
  induction k using Nat.strong_induction_on with
  | _ k ih =>
    intro h2 h40 fuel n hf
    obtain ⟨f, rfl⟩ : ∃ f, fuel = f + 1 := ⟨fuel - 1, by omega⟩
    by_cases hk7 : k ≤ 7
    · interval_cases k
      · rw [helper64, if_pos rfl]
        exact table_case _ _ _ 2 3 n rfl table2_eq
      · rw [helper64, if_neg (by decide), if_pos rfl]
        exact table_case _ _ _ 3 7 n rfl table3_eq
      · rw [helper64, if_neg (by decide), if_neg (by decide), if_pos rfl]
        exact table_case _ _ _ 4 15 n rfl table4_eq
      · rw [helper64, if_neg (by decide), if_neg (by decide), if_neg (by decide), if_pos rfl]
        exact table_case _ _ _ 5 31 n rfl table5_eq
      · rw [helper64, if_neg (by decide), if_neg (by decide), if_neg (by decide),
          if_neg (by decide), if_pos rfl]
        exact table_case _ _ _ 6 63 n rfl table6_eq
      · rw [helper64, if_neg (by decide), if_neg (by decide), if_neg (by decide),
          if_neg (by decide), if_neg (by decide), if_pos rfl]
        exact table_case _ _ _ 7 127 n rfl table7_eq
    · have hk1 : k >>> 1 = k / 2 := by rw [Nat.shiftRight_eq_div_pow, pow_one]
      have e1 : helper64 strip f (if strip = true then bzh64 n (k / 2) else n) (k / 2)
          = some (blockOf (k / 2) n) := by
        rw [ih (k / 2) (by omega) (by omega) (by omega) f _ (by omega)]
        split
        · rw [bzh64_eq_mod, blockOf_mod]
        · rfl
      have e2 : ∀ m, m % 2 ^ (k - k / 2) = Siter (k / 2) n % 2 ^ (k - k / 2) →
          helper64 strip f m (k - k / 2) = some (blockOf (k - k / 2) (Siter (k / 2) n)) := by
        intro m hm
        rw [ih (k - k / 2) (by omega) (by omega) (by omega) f _ (by omega), blockOf_congr hm]
      have hsum : k / 2 + (k - k / 2) = k := by omega
      rw [helper64, if_neg (by omega), if_neg (by omega), if_neg (by omega), if_neg (by omega),
        if_neg (by omega), if_neg (by omega)]
      simp only [hk1, e1]
      have harg : (u64 (n * (blockOf (k / 2) n).cc + (blockOf (k / 2) n).d) >>> (k / 2))
          % 2 ^ (k - k / 2) = Siter (k / 2) n % 2 ^ (k - k / 2) :=
        second_arg_mod 64 n (k / 2) (k - k / 2) (by omega)
      rw [e2]
      · simp only []
        rw [combine_trunc, hsum, u64_block k n h40]
      · split
        · rw [bzh64_eq_mod, Nat.mod_mod]; exact harg
        · exact harg

/-! ## Bit length -/

theorem bitlenAux_zero (fuel : Nat) : bitlenAux fuel 0 = 0 := by
  cases fuel <;> simp [bitlenAux]

theorem bitlenAux_spec (fuel : Nat) :
    ∀ n, n ≤ fuel →
      n < 2 ^ bitlenAux fuel n ∧ (0 < n → 2 ^ bitlenAux fuel n ≤ 2 * n) := by
  induction fuel with
  | zero =>
    intro n hn
    have : n = 0 := by omega
    subst this
    simp [bitlenAux]
  | succ f ih =>
    intro n hn
    by_cases h0 : n = 0
    · subst h0; simp [bitlenAux]
    · have hrec : bitlenAux (f + 1) n = bitlenAux f (n / 2) + 1 := by
        simp [bitlenAux, h0]
      obtain ⟨h1, h2⟩ := ih (n / 2) (by omega)
      rw [hrec, pow_succ]
      constructor
      · omega
      · intro _
        by_cases hh : 0 < n / 2
        · have := h2 hh; omega
        · have e : n / 2 = 0 := by omega
          rw [e, bitlenAux_zero]
          simp
          omega

theorem lt_two_pow_bitlen (n : Nat) : n < 2 ^ bitlen n :=
  (bitlenAux_spec n n (le_refl n)).1

theorem two_pow_bitlen_le (n : Nat) (h : 0 < n) : 2 ^ bitlen n ≤ 2 * n :=
  (bitlenAux_spec n n (le_refl n)).2 h

theorem bitlen_zero : bitlen 0 = 0 := rfl

theorem bitlen_le_of_lt {n w : Nat} (h : n < 2 ^ w) : bitlen n ≤ w := by
  by_cases h0 : n = 0
  · subst h0; simp [bitlen_zero]
  · have h1 := two_pow_bitlen_le n (by omega)
    have h2 : 2 ^ bitlen n < 2 ^ (w + 1) := by rw [pow_succ]; omega
    have := (Nat.pow_lt_pow_iff_right (by norm_num : 1 < 2)).1 h2
    omega

theorem lt_bitlen_of_le {n w : Nat} (h : 2 ^ w ≤ n) : w < bitlen n := by
  have h1 := lt_two_pow_bitlen n
  exact (Nat.pow_lt_pow_iff_right (by norm_num : 1 < 2)).1 (lt_of_le_of_lt h h1)

theorem clz64_eq (n : Nat) : clz64 n = 64 - bitlen n := rfl

theorem sub_clz64 {n : Nat} (h : n < 2 ^ 64) : 64 - clz64 n = bitlen n := by
  have := bitlen_le_of_lt h
  rw [clz64_eq]; omega

theorem shiftRight_one (k : Nat) : k >>> 1 = k / 2 := by
  rw [Nat.shiftRight_eq_div_pow, pow_one]

/-- In the loop of `collatz64` the block size is between 2 and 32. -/
theorem L2_bounds {n : Nat} (h7 : 7 < n) (h : n < 2 ^ 64) :
    2 ≤ bitlen n / 2 ∧ bitlen n / 2 ≤ 32 := by
  have h1 : 3 < bitlen n := lt_bitlen_of_le (by norm_num; omega)
  have h2 := bitlen_le_of_lt h
  omega

/-! ## The 64-bit apply step -/

theorem apply64_eq (n cc d L2 : Nat) (hn : n < 2 ^ 64) (hc : cc < 2 ^ 64) (hd : d < 2 ^ 64)
    (hL : L2 < 64) :
    (apply64 n cc d L2).1 = (n * cc + d) / 2 ^ 64 / 2 ^ L2 ∧
    (apply64 n cc d L2).2 = (n * cc + d) / 2 ^ L2 % 2 ^ 64 ∧
    (my_mul64 n cc).2 + (my_add64 0 (my_mul64 n cc).1 d).1 < 2 ^ 64 := by
  have hprod : n * cc ≤ (2 ^ 64 - 1) * (2 ^ 64 - 1) :=
    Nat.mul_le_mul (by omega) (by omega)
  have hX : n * cc + d < 2 ^ 64 * 2 ^ 64 := by
    have : (2 ^ 64 - 1) * (2 ^ 64 - 1) + 2 ^ 64 ≤ 2 ^ 64 * 2 ^ 64 := by norm_num
    omega
  have hq : (n * cc + d) / 2 ^ 64 < 2 ^ 64 := Nat.div_lt_of_lt_mul hX
  have hq0 : n * cc / 2 ^ 64 < 2 ^ 64 := Nat.div_lt_of_lt_mul (by omega)
  -- the carry-propagating sum is the exact double word
  have hhi : (n * cc) / 2 ^ 64 + ((n * cc) % 2 ^ 64 + d) / 2 ^ 64 = (n * cc + d) / 2 ^ 64 := by
    have e : n * cc + d = (n * cc) % 2 ^ 64 + d + 2 ^ 64 * ((n * cc) / 2 ^ 64) := by
      have := Nat.div_add_mod (n * cc) (2 ^ 64)
      omega
    rw [e, Nat.add_mul_div_left _ _ (by norm_num : 0 < 2 ^ 64)]
    omega
  have hlo : ((n * cc) % 2 ^ 64 + d) % 2 ^ 64 = (n * cc + d) % 2 ^ 64 := by
    rw [Nat.mod_add_mod]
  have h64 : L2 % 64 = L2 := Nat.mod_eq_of_lt hL
  have hm2 : (my_mul64 n cc).2 = n * cc / 2 ^ 64 := by
    simp only [my_mul64, u64]; exact Nat.mod_eq_of_lt hq0
  have hm1 : (my_mul64 n cc).1 = n * cc % 2 ^ 64 := rfl
  have ha1 : (my_add64 0 (my_mul64 n cc).1 d).1 = ((n * cc) % 2 ^ 64 + d) / 2 ^ 64 := by
    simp only [my_add64, hm1, Nat.add_zero]
  have ha2 : (my_add64 0 (my_mul64 n cc).1 d).2 = (n * cc + d) % 2 ^ 64 := by
    simp only [my_add64, hm1, Nat.add_zero, u64]; exact hlo
  have hsum : (my_mul64 n cc).2 + (my_add64 0 (my_mul64 n cc).1 d).1 = (n * cc + d) / 2 ^ 64 := by
    rw [hm2, ha1, hhi]
  have hword : (n * cc + d) / 2 ^ 64 * 2 ^ 64 + (n * cc + d) % 2 ^ 64 = n * cc + d := by
    have := Nat.div_add_mod (n * cc + d) (2 ^ 64)
    rw [Nat.mul_comm]; exact this
  refine ⟨?_, ?_, ?_⟩
  · simp only [apply64, my_shr64, hsum, h64, u64, Nat.mod_eq_of_lt hq,
      Nat.shiftRight_eq_div_pow]
  · simp only [apply64, my_shr64, hsum, ha2, h64, u64, Nat.mod_eq_of_lt hq,
      Nat.shiftRight_eq_div_pow, hword]
  · rw [hsum]; exact hq

/-- The double word left by the apply step is the exact shifted value. -/
theorem apply64_value (n cc d L2 : Nat) (hn : n < 2 ^ 64) (hc : cc < 2 ^ 64) (hd : d < 2 ^ 64)
    (hL : L2 < 64) :
    (apply64 n cc d L2).1 * 2 ^ 64 + (apply64 n cc d L2).2 = (n * cc + d) / 2 ^ L2 := by
  obtain ⟨h1, h2, _⟩ := apply64_eq n cc d L2 hn hc hd hL
  rw [h1, h2, Nat.div_div_eq_div_mul, Nat.mul_comm (2 ^ 64), ← Nat.div_div_eq_div_mul]
  rw [Nat.mul_comm]
  exact Nat.div_add_mod _ _

theorem apply64_snd_lt (n cc d L2 : Nat) : (apply64 n cc d L2).2 < 2 ^ 64 := by
  simp only [apply64, my_shr64, u64]
  exact Nat.mod_lt _ (by norm_num)

/-- The high word is zero exactly when the shifted value fits 64 bits. -/
theorem apply64_hi_zero_iff (n cc d L2 : Nat) (hn : n < 2 ^ 64) (hc : cc < 2 ^ 64)
    (hd : d < 2 ^ 64) (hL : L2 < 64) :
    (apply64 n cc d L2).1 = 0 ↔ (n * cc + d) / 2 ^ L2 < 2 ^ 64 := by
  have hv := apply64_value n cc d L2 hn hc hd hL
  have hlt := apply64_snd_lt n cc d L2
  constructor
  · intro h0; rw [← hv, h0]; omega
  · intro h
    by_contra hne
    have : 1 ≤ (apply64 n cc d L2).1 := Nat.one_le_iff_ne_zero.mpr hne
    have : 2 ^ 64 ≤ (apply64 n cc d L2).1 * 2 ^ 64 := Nat.le_mul_of_pos_left _ this
    omega

/-- The value `t = hi << 64 | lo` built on escalation is the double word. -/
theorem shl_or_eq (hi lo : Nat) (h : lo < 2 ^ 64) : (hi <<< 64) ||| lo = hi * 2 ^ 64 + lo := by
  rw [Nat.shiftLeft_eq, Nat.mul_comm, Nat.mul_add_lt_is_or h]

/-! ## Direct simulation and the step relation -/

theorem T_even {n : Nat} (h : n % 2 = 0) : T n = n / 2 := by simp [T, h]

theorem T_odd {n : Nat} (h : n % 2 = 1) : T n = 3 * n + 1 := by simp [T, h]

theorem StepsBelow.toStepsTo {B n c : Nat} (h : StepsBelow B n c) : StepsTo n c := by
  induction h with
  | one => exact StepsTo.one
  | step n c h1 _ _ ih => exact StepsTo.step n c h1 ih

theorem StepsTo.unique {n c : Nat} (h : StepsTo n c) : ∀ {c'}, StepsTo n c' → c = c' := by
  induction h with
  | one =>
    intro c' h'
    cases h' with
    | one => rfl
    | step _ _ h1 _ => exact absurd rfl h1
  | step n c h1 _ ih =>
    intro c' h'
    cases h' with
    | one => exact absurd rfl h1
    | step _ c2 _ h2 => rw [ih h2]

theorem naive_steps_sound : ∀ fuel n c, naive_steps fuel n = some c → StepsTo n c := by
  intro fuel
  induction fuel with
  | zero =>
    intro n c h
    by_cases h1 : n = 1
    · subst h1; simp [naive_steps] at h; subst h; exact StepsTo.one
    · simp [naive_steps, h1] at h
  | succ f ih =>
    intro n c h
    by_cases h1 : n = 1
    · subst h1; simp [naive_steps] at h; subst h; exact StepsTo.one
    · simp only [naive_steps, h1, if_false, Option.map_eq_some'] at h
      obtain ⟨c0, hc0, rfl⟩ := h
      exact StepsTo.step n c0 h1 (ih _ _ hc0)

theorem naive_steps_complete {n c : Nat} (h : StepsTo n c) :
    ∀ fuel, c ≤ fuel → naive_steps fuel n = some c := by
  induction h with
  | one => intro fuel _; cases fuel <;> simp [naive_steps]
  | step n c h1 _ ih =>
    intro fuel hf
    obtain ⟨f, rfl⟩ : ∃ f, fuel = f + 1 := ⟨fuel - 1, by omega⟩
    simp only [naive_steps, h1, if_false, ih f (by omega), Option.map_some']

theorem StepsBelow.lt {B n c : Nat} (hB : 1 < B) (h : StepsBelow B n c) : n < B := by
  cases h with
  | one => exact hB
  | step _ _ _ h2 _ => exact h2

theorem StepsBelow.pos {B n c : Nat} (h : StepsBelow B n c) : 0 < n := by
  induction h with
  | one => norm_num
  | step n c _ _ _ ih =>
    by_contra h0
    have : n = 0 := by omega
    subst this
    simp [T] at ih

theorem StepsBelow.inv {B n c : Nat} (h : StepsBelow B n c) (h1 : n ≠ 1) :
    ∃ c0, c = c0 + 1 ∧ n < B ∧ StepsBelow B (T n) c0 := by
  cases h with
  | one => exact absurd rfl h1
  | step _ c0 _ h2 h3 => exact ⟨c0, rfl, h2, h3⟩

/-- One reduction step `S` costs one application of `T` on an even value and two on
an odd one. -/
theorem StepsBelow.S_step {B y c : Nat} (h : StepsBelow B y c) (hy : 2 ≤ y) :
    ∃ c', c = c' + (1 + y % 2) ∧ StepsBelow B (S y) c' := by
  obtain ⟨c0, hc0, _, h3⟩ := h.inv (by omega)
  rcases Nat.mod_two_eq_zero_or_one y with he | ho
  · rw [T_even he] at h3
    exact ⟨c0, by omega, by rw [S_even he]; exact h3⟩
  · rw [T_odd ho] at h3
    obtain ⟨c1, hc1, _, h6⟩ := h3.inv (by omega)
    have hev : (3 * y + 1) % 2 = 0 := by omega
    rw [T_even hev] at h6
    exact ⟨c1, by omega, by rw [S_odd ho]; exact h6⟩

/-- A block of `k` reduction steps none of which starts below 2 costs exactly
`k + oddCount k y` applications of `T`. -/
theorem StepsBelow.block {B : Nat} : ∀ (k y c : Nat), (∀ j, j < k → 2 ≤ Siter j y) →
    StepsBelow B y c → ∃ c', c = c' + (k + oddCount k y) ∧ StepsBelow B (Siter k y) c' := by
  intro k
  induction k with
  | zero => intro y c _ h; exact ⟨c, by simp [oddCount], h⟩
  | succ k ih =>
    intro y c hj h
    obtain ⟨c1, hc1, h1⟩ := h.S_step (hj 0 (by omega))
    obtain ⟨c2, hc2, h2⟩ := ih (S y) c1 (fun j hjk => hj (j + 1) (by omega)) h1
    refine ⟨c2, ?_, h2⟩
    simp only [oddCount]
    omega

/-- The converse of `S_step`: a run from `S y` extends to a run from `y`. -/
theorem StepsBelow.of_S {B y c : Nat} (h : StepsBelow B (S y) c) (hy : 2 ≤ y)
    (hB : 3 * y + 1 < B) : StepsBelow B y (c + (1 + y % 2)) := by
  rcases Nat.mod_two_eq_zero_or_one y with he | ho
  · rw [he]
    refine StepsBelow.step y c (by omega) (by omega) ?_
    rw [T_even he, ← S_even he]; exact h
  · rw [ho]
    have hev : (3 * y + 1) % 2 = 0 := by omega
    refine StepsBelow.step y (c + 1) (by omega) (by omega) ?_
    rw [T_odd ho]
    refine StepsBelow.step (3 * y + 1) c (by omega) hB ?_
    rw [T_even hev, ← S_odd ho]; exact h

/-- The iterate `S^j` never shrinks a value by more than `2^j`. -/
theorem le_two_pow_mul_Siter (j n : Nat) : n ≤ 2 ^ j * Siter j n := by
  rw [← blockOf_eq]
  have := blockOf_cc_pos j n
  calc n = 1 * n := (Nat.one_mul n).symm
    _ ≤ (blockOf j n).cc * n := Nat.mul_le_mul_right n this
    _ ≤ _ := Nat.le_add_right _ _

/-- Inside a block of `bitlen n / 2` steps no value is below 2. -/
theorem two_le_Siter {n j : Nat} (h7 : 7 < n) (hj : j ≤ bitlen n / 2) : 2 ≤ Siter j n := by
  have h1 := le_two_pow_mul_Siter j n
  have h2 := two_pow_bitlen_le n (by omega)
  have h3 : 3 < bitlen n := lt_bitlen_of_le (by norm_num; omega)
  have h4 : 2 ^ (j + 2) ≤ 2 ^ bitlen n := Nat.pow_le_pow_right (by norm_num) (by omega)
  by_contra hlt
  have h5 : Siter j n ≤ 1 := by omega
  have h6 : 2 ^ j * Siter j n ≤ 2 ^ j * 1 := Nat.mul_le_mul_left _ h5
  have h7 : 2 ^ (j + 2) = 4 * 2 ^ j := by rw [pow_add]; ring
  omega

/-! ## The loop of `collatz64` -/

theorem collatz64_small (strip : Bool) (fuel n : Nat) (h : n ≤ 7) :
    collatz64 strip (fuel + 1) n = some (table_a.getD n 0) := by
  rw [collatz64, if_neg (by omega)]

/-- One iteration of the loop of `collatz64`, with the block returned by `helper64`. -/
theorem collatz64_iter (strip : Bool) (fuel n : Nat) (b : Block) (h7 : 7 < n) (hn : n < 2 ^ 64)
    (hb : helper64 strip fuel (if strip = true then bzh64 n (bitlen n / 2) else n)
      (bitlen n / 2) = some b)
    (hc : b.cc < 2 ^ 64) (hd : b.d < 2 ^ 64) :
    collatz64 strip (fuel + 1) n =
      if (n * b.cc + b.d) / 2 ^ (bitlen n / 2) < 2 ^ 64 then
        (collatz64 strip fuel ((n * b.cc + b.d) / 2 ^ (bitlen n / 2))).map
          (fun c => u64 (b.ans + c))
      else
        (collatz128 strip fuel ((n * b.cc + b.d) / 2 ^ (bitlen n / 2))).map
          (fun c => u64 (b.ans + c)) := by
  have hL : bitlen n / 2 < 64 := by have := (L2_bounds h7 hn).2; omega
  have hk : (64 - clz64 n) >>> 1 = bitlen n / 2 := by rw [shiftRight_one, sub_clz64 hn]
  have hv := apply64_value n b.cc b.d (bitlen n / 2) hn hc hd hL
  have hz := apply64_hi_zero_iff n b.cc b.d (bitlen n / 2) hn hc hd hL
  have hlo := apply64_snd_lt n b.cc b.d (bitlen n / 2)
  rw [collatz64, if_pos h7]
  simp only [hk, hb]
  by_cases hfit : (n * b.cc + b.d) / 2 ^ (bitlen n / 2) < 2 ^ 64
  · have h0 := hz.2 hfit
    rw [if_pos hfit, if_neg (by simpa using h0)]
    have : (apply64 n b.cc b.d (bitlen n / 2)).2 = (n * b.cc + b.d) / 2 ^ (bitlen n / 2) := by
      rw [← hv, h0]; simp
    rw [this]
  · have h0 : (apply64 n b.cc b.d (bitlen n / 2)).1 ≠ 0 := fun h => hfit (hz.1 h)
    rw [if_neg hfit, if_pos h0, shl_or_eq _ _ hlo, hv]

/-- The look-up table `table_a` holds the step counts of `1 .. 7`. -/
theorem table_a_steps : ∀ n, 1 ≤ n → n ≤ 7 → StepsTo n (table_a.getD n 0) := by
  intro n h1 h7
  apply naive_steps_sound 16
  interval_cases n <;> decide

/-- The function `collatz64` returns the step count of every value whose trajectory stays below
`2^64`. -/
theorem collatz64_correct (strip : Bool) :
    ∀ c n, StepsBelow (2 ^ 64) n c → c < 2 ^ 64 →
      ∀ fuel, c + 1 ≤ fuel → collatz64 strip fuel n = some c := by
  intro c
  induction c using Nat.strong_induction_on with
  | _ c ih =>
    intro n h hc fuel hf
    obtain ⟨f, rfl⟩ : ∃ f, fuel = f + 1 := ⟨fuel - 1, by omega⟩
    have hpos := h.pos
    have hn : n < 2 ^ 64 := h.lt (by norm_num)
    by_cases h7 : n ≤ 7
    · rw [collatz64_small strip f n h7]
      have := (table_a_steps n hpos h7).unique h.toStepsTo
      rw [this]
    · have h7' : 7 < n := by omega
      obtain ⟨hk2, hk32⟩ := L2_bounds h7' hn
      obtain ⟨c', hc', hrest⟩ := h.block (bitlen n / 2) n c
        (fun j hj => two_le_Siter h7' (le_of_lt hj))
      have hoc := oddCount_le (bitlen n / 2) n
      have hb : helper64 strip f (if strip = true then bzh64 n (bitlen n / 2) else n)
          (bitlen n / 2) = some (blockOf (bitlen n / 2) n) := by
        rw [helper64_eq_blockOf strip _ hk2 (by omega) f _ (by omega)]
        split
        · rw [bzh64_eq_mod, blockOf_mod]
        · rfl
      obtain ⟨hdlt, hclt, _⟩ := blockOf_lt (bitlen n / 2) n (by omega)
      have hval : (n * (blockOf (bitlen n / 2) n).cc + (blockOf (bitlen n / 2) n).d)
          / 2 ^ (bitlen n / 2) = Siter (bitlen n / 2) n := by
        rw [Siter_eq_div, Nat.mul_comm n]
      have hvlt : Siter (bitlen n / 2) n < 2 ^ 64 := hrest.lt (by norm_num)
      rw [collatz64_iter strip f n _ h7' hn hb hclt hdlt, hval, if_pos hvlt,
        ih c' (by omega) _ hrest (by omega) f (by omega), Option.map_some', blockOf_ans]
      congr 1
      rw [u64_of_lt (by omega)]
      omega

/-! ## Hand-over from the wide loops to `collatz64` -/

theorem u128_of_lt {x : Nat} (h : x < 2 ^ 128) : u128 x = x := Nat.mod_eq_of_lt h

theorem clz128_of_lt {n : Nat} (h : n < 2 ^ 64) : 128 - clz128 n = bitlen n := by
  have hb := bitlen_le_of_lt h
  have hhi : u64 (n >>> 64) = 0 := by
    rw [Nat.shiftRight_eq_div_pow, Nat.div_eq_of_lt h]; rfl
  have hlo : u64 n = n := u64_of_lt h
  simp only [clz128, hhi, hlo, my_clz, ne_eq, not_true_eq_false, if_false]
  omega

/-- A value below `2^39` passes through `fastest_collatz` and `collatz128` untouched
and is handled by `collatz64`. -/
theorem fastest_collatz_small (strip : Bool) (fuel n : Nat) (h : n < 2 ^ 39) :
    fastest_collatz strip (fuel + 2) n = collatz64 strip fuel n := by
  have hb : bitlen n ≤ 39 := bitlen_le_of_lt h
  have h64 : n < 2 ^ 64 := lt_of_lt_of_le h (Nat.pow_le_pow_right (by norm_num) (by norm_num))
  have h128 : n < 2 ^ 128 := lt_of_lt_of_le h (Nat.pow_le_pow_right (by norm_num) (by norm_num))
  have hsz : mpz_sizeinbase2 n >>> 1 < THRESHOLD128 := by
    rw [shiftRight_one]
    unfold mpz_sizeinbase2 THRESHOLD128
    split <;> omega
  have hL : (128 - clz128 n) >>> 1 < THRESHOLD64 := by
    rw [shiftRight_one, clz128_of_lt h64]
    unfold THRESHOLD64
    omega
  rw [fastest_collatz, if_neg (by omega)]
  unfold mpz_get_ui128
  rw [u128_of_lt h128, collatz128, if_neg (by omega), u64_of_lt h64]

/-! ## Soundness of the descent checker -/

theorem S_raw (m : Nat) :
    (Bool.rec (Nat.div (Nat.succ (Nat.mul 3 m)) 2) (Nat.div m 2) (Nat.beq (Nat.mod m 2) 0) : Nat)
      = S m := by
  rcases Nat.mod_two_eq_zero_or_one m with h | h
  · have hb : Nat.beq (Nat.mod m 2) 0 = true := by
      show Nat.beq (m % 2) 0 = true
      rw [h]; rfl
    rw [hb, S_even h]; rfl
  · have hb : Nat.beq (Nat.mod m 2) 0 = false := by
      show Nat.beq (m % 2) 0 = false
      rw [h]; rfl
    rw [hb, S_odd h]; rfl

theorem dropsBelow_zero (n0 m : Nat) : dropsBelow n0 0 m = false := rfl

theorem dropsBelow_succ (n0 fuel m : Nat) :
    dropsBelow n0 (fuel + 1) m =
      Nat.rec (motive := fun _ => Bool) false
        (fun m1 _ =>
          Bool.rec
            (Bool.rec false (dropsBelow n0 fuel (Nat.succ m1))
              (Nat.ble (Nat.succ (Nat.succ m1)) 1099511627776))
            true (Nat.ble (Nat.succ (Nat.succ m1)) n0))
        (S m) := by
  rw [← S_raw m]; rfl

/-- What a positive answer of `dropsBelow` means for one round. -/
theorem dropsBelow_true {n0 fuel m : Nat} (h : dropsBelow n0 (fuel + 1) m = true) :
    0 < S m ∧ (S m < n0 ∨ (S m < 2 ^ 40 ∧ dropsBelow n0 fuel (S m) = true)) := by
  rw [dropsBelow_succ] at h
  cases hS : S m with
  | zero => rw [hS] at h; exact (Bool.false_ne_true h).elim
  | succ m1 =>
    rw [hS] at h
    refine ⟨Nat.succ_pos _, ?_⟩
    cases hb1 : Nat.ble (Nat.succ (Nat.succ m1)) n0 with
    | true =>
      left
      have := Nat.le_of_ble_eq_true hb1
      omega
    | false =>
      right
      cases hb2 : Nat.ble (Nat.succ (Nat.succ m1)) 1099511627776 with
      | true =>
        have h40 := Nat.le_of_ble_eq_true hb2
        have h' : dropsBelow n0 fuel (Nat.succ m1) = true := by
          simpa [hb1, hb2] using h
        refine ⟨?_, h'⟩
        have : (2 : Nat) ^ 40 = 1099511627776 := by norm_num
        omega
      | false =>
        simp [hb1, hb2] at h

theorem two_pow_40_bounds : (2 : Nat) ^ 40 = 1099511627776 ∧
    (2 : Nat) ^ 64 = 18446744073709551616 := by
  constructor <;> norm_num

/-- If every positive value below `n0` reaches 1 in at most `K` steps below `2^64`, a
positive answer of the checker extends this to the checked value. -/
theorem dropsBelow_sound (K n0 : Nat)
    (hgood : ∀ m', 1 ≤ m' → m' < n0 → ∃ c, StepsBelow (2 ^ 64) m' c ∧ c ≤ K) :
    ∀ fuel m, 2 ≤ m → m < 2 ^ 40 → dropsBelow n0 fuel m = true →
      ∃ c, StepsBelow (2 ^ 64) m c ∧ c ≤ K + 2 * fuel := by
  obtain ⟨e40, e64⟩ := two_pow_40_bounds
  intro fuel
  induction fuel with
  | zero => intro m _ _ h; rw [dropsBelow_zero] at h; exact absurd h (by decide)
  | succ f ih =>
    intro m hm2 hm40 h
    obtain ⟨hpos, hcase⟩ := dropsBelow_true h
    have hstep : ∀ c, StepsBelow (2 ^ 64) (S m) c → StepsBelow (2 ^ 64) m (c + (1 + m % 2)) :=
      fun c hc => hc.of_S hm2 (by omega)
    have hpar : m % 2 < 2 := Nat.mod_lt _ (by norm_num)
    rcases hcase with hlt | ⟨hlt, hrec⟩
    · obtain ⟨c, hc, hcK⟩ := hgood (S m) hpos hlt
      exact ⟨_, hstep c hc, by omega⟩
    · by_cases hS2 : 2 ≤ S m
      · obtain ⟨c, hc, hcK⟩ := ih (S m) hS2 hlt hrec
        exact ⟨_, hstep c hc, by omega⟩
      · have h1 : S m = 1 := by omega
        refine ⟨_, hstep 0 (by rw [h1]; exact StepsBelow.one), by omega⟩

theorem checkFrom_succ (len n : Nat) :
    checkFrom (len + 1) n =
      Nat.rec (motive := fun _ => Bool) false
        (fun l _ => Bool.rec false (checkFrom len (Nat.add l 5))
          (dropsBelow (Nat.succ l) 150 (Nat.succ l))) n := rfl

theorem checkFrom_sound : ∀ len n, checkFrom len n = true →
    ∀ j, j < len → dropsBelow (n + 4 * j) 150 (n + 4 * j) = true := by
  intro len
  induction len with
  | zero => intro n _ j hj; omega
  | succ len ih =>
    intro n h j hj
    rw [checkFrom_succ] at h
    cases n with
    | zero => exact (Bool.false_ne_true h).elim
    | succ l =>
      cases hd : dropsBelow (Nat.succ l) 150 (Nat.succ l) with
      | false => simp [hd] at h
      | true =>
        have hrest : checkFrom len (Nat.add l 5) = true := by simpa [hd] using h
        cases j with
        | zero => simpa using hd
        | succ j' =>
          have := ih _ hrest j' (by omega)
          have e : Nat.add l 5 + 4 * j' = l + 1 + 4 * (j' + 1) := by
            show l + 5 + 4 * j' = _
            omega
          rw [e] at this
          exact this

theorem checkChunks_succ (cnt n : Nat) :
    checkChunks (cnt + 1) n =
      Nat.rec (motive := fun _ => Bool) false
        (fun l _ => Bool.rec false (checkChunks cnt (Nat.add l 1001))
          (checkFrom 250 (Nat.succ l))) n := rfl

theorem checkChunks_sound : ∀ cnt n, checkChunks cnt n = true →
    ∀ i, i < cnt → checkFrom 250 (n + 1000 * i) = true := by
  intro cnt
  induction cnt with
  | zero => intro n _ i hi; omega
  | succ cnt ih =>
    intro n h i hi
    rw [checkChunks_succ] at h
    cases n with
    | zero => exact (Bool.false_ne_true h).elim
    | succ l =>
      cases hd : checkFrom 250 (Nat.succ l) with
      | false => simp [hd] at h
      | true =>
        have hrest : checkChunks cnt (Nat.add l 1001) = true := by simpa [hd] using h
        cases i with
        | zero => simpa using hd
        | succ i' =>
          have := ih _ hrest i' (by omega)
          have e : Nat.add l 1001 + 1000 * i' = l + 1 + 1000 * (i' + 1) := by
            show l + 1001 + 1000 * i' = _
            omega
          rw [e] at this
          exact this

/-- The checker accepts every starting value `3, 7, 11, ..., 99999`. -/
theorem checkChunks_all : checkChunks 100 3 = true := by decide!

theorem dropsBelow_of_mod4 (n : Nat) (h3 : n % 4 = 3) (hn : n ≤ 100000) :
    dropsBelow n 150 n = true := by
  have h1 := checkChunks_sound 100 3 checkChunks_all (n / 1000) (by omega)
  have h2 := checkFrom_sound 250 _ h1 ((n % 1000) / 4) (by omega)
  have e : 3 + 1000 * (n / 1000) + 4 * (n % 1000 / 4) = n := by omega
  rw [e] at h2
  exact h2

/-- Every starting value up to `100000` reaches 1 with all values below `2^64`, in at
most `300 n` steps. -/
theorem reaches_one_upto : ∀ n, 1 ≤ n → n ≤ 100000 →
    ∃ c, StepsBelow (2 ^ 64) n c ∧ c ≤ 300 * n := by
  obtain ⟨e40, e64⟩ := two_pow_40_bounds
  intro n
  induction n using Nat.strong_induction_on with
  | _ n ih =>
    intro h1 hn
    by_cases hone : n = 1
    · subst hone; exact ⟨0, StepsBelow.one, by norm_num⟩
    · have hgood : ∀ m', 1 ≤ m' → m' < n → ∃ c, StepsBelow (2 ^ 64) m' c ∧ c ≤ 300 * (n - 1) := by
        intro m' hm1 hmn
        obtain ⟨c, hc, hle⟩ := ih m' hmn hm1 (by omega)
        exact ⟨c, hc, le_trans hle (Nat.mul_le_mul_left _ (by omega))⟩
      have hmod : n % 4 = 0 ∨ n % 4 = 1 ∨ n % 4 = 2 ∨ n % 4 = 3 := by omega
      have heven : n % 2 = 0 → ∃ c, StepsBelow (2 ^ 64) n c ∧ c ≤ 300 * n := by
        intro he
        have hS : S n = n / 2 := S_even he
        obtain ⟨c, hc, hle⟩ := hgood (n / 2) (by omega) (by omega)
        rw [← hS] at hc
        have := hc.of_S (by omega) (by omega)
        exact ⟨_, this, by omega⟩
      rcases hmod with h | h | h | h
      · exact heven (by omega)
      · have ho : n % 2 = 1 := by omega
        have hS : S n = (3 * n + 1) / 2 := S_odd ho
        have he2 : S n % 2 = 0 := by rw [hS]; omega
        have hSS : S (S n) = (3 * n + 1) / 2 / 2 := by rw [S_even he2, hS]
        obtain ⟨c, hc, hle⟩ := hgood ((3 * n + 1) / 2 / 2) (by omega) (by omega)
        rw [← hSS] at hc
        have h1' := hc.of_S (by rw [hS]; omega) (by rw [hS]; omega)
        have h2' := h1'.of_S (by omega) (by omega)
        exact ⟨_, h2', by omega⟩
      · exact heven (by omega)
      · have hd := dropsBelow_of_mod4 n h hn
        obtain ⟨c, hc, hle⟩ := dropsBelow_sound (300 * (n - 1)) n hgood 150 n
          (by omega) (by omega) hd
        exact ⟨c, hc, by omega⟩

/-! ## `helper128` is the exact block truncated to 64 bits -/

theorem truncBlock_of_le (k y : Nat) (hk : k ≤ 40) : truncBlock (blockOf k y) = blockOf k y := by
  obtain ⟨hd, hc, _⟩ := blockOf_lt k y hk
  simp only [truncBlock, u64_of_lt hd, u64_of_lt hc]

theorem blockOf_one (n : Nat) :
    blockOf 1 n = ⟨n % 2, 1 + 2 * (n % 2), 1 + n % 2⟩ := by
  rcases Nat.mod_two_eq_zero_or_one n with h | h <;> simp [blockOf, h]

theorem blockOf_u64 (k n : Nat) (hk : k ≤ 64) : blockOf k (u64 n) = blockOf k n := by
  apply blockOf_congr
  unfold u64
  exact Nat.mod_mod_of_dvd n (pow_dvd_pow 2 hk)

theorem bzh128_lt64 (n pos : Nat) (h : pos < 64) : bzh128 n pos = n % 2 ^ pos := by
  unfold bzh128
  rw [if_neg (by omega), bzh64_eq_mod]
  unfold u64
  exact Nat.mod_mod_of_dvd n (pow_dvd_pow 2 (by omega))

theorem blockOf_ans_lt (k y : Nat) (hk : k ≤ 128) : (blockOf k y).ans < 2 ^ 64 := by
  have ha := blockOf_ans k y
  have ho := oddCount_le k y
  have : (2 : Nat) ^ 64 = 18446744073709551616 := by norm_num
  omega

/-- Up to 80 bits `helper128` returns the exact block with `d` and `cc` reduced modulo
`2^64`: both halves of the split are exact, the combination is formed in `uint64_t`. -/
theorem helper128_eq_trunc (strip : Bool) :
    ∀ k, k ≤ 80 → ∀ fuel n, k + 1 ≤ fuel →
      helper128 strip fuel n k = some (truncBlock (blockOf k n)) := by
  intro k
  induction k using Nat.strong_induction_on with
  | _ k ih =>
    intro h80 fuel n hf
    obtain ⟨f, rfl⟩ : ∃ f, fuel = f + 1 := ⟨fuel - 1, by omega⟩
    by_cases h20 : k < 20
    · rw [helper128, if_pos (by unfold THRESHOLD64; omega), truncBlock_of_le k n (by omega)]
      by_cases hk1 : k = 1
      · subst hk1
        rw [if_pos rfl, blockOf_one]
        have : n &&& 1 = n % 2 := and_mask_eq_mod n 1 1 rfl
        simp only [this]
      · rw [if_neg hk1]
        by_cases hk0 : k = 0
        · subst hk0; rw [if_pos rfl]; rfl
        · rw [if_neg hk0, helper64_eq_blockOf strip k (by omega) (by omega) f _ (by omega),
            blockOf_u64 k n (by omega)]
    · have hk1 : k >>> 1 = k / 2 := shiftRight_one k
      have e1 : helper128 strip f (if strip = true then bzh128 n (k / 2) else n) (k / 2)
          = some (blockOf (k / 2) n) := by
        rw [ih (k / 2) (by omega) (by omega) f _ (by omega), truncBlock_of_le _ _ (by omega)]
        split
        · rw [bzh128_lt64 _ _ (by omega), blockOf_mod]
        · rfl
      have e2 : ∀ m, m % 2 ^ (k - k / 2) = Siter (k / 2) n % 2 ^ (k - k / 2) →
          helper128 strip f m (k - k / 2) = some (blockOf (k - k / 2) (Siter (k / 2) n)) := by
        intro m hm
        rw [ih (k - k / 2) (by omega) (by omega) f _ (by omega),
          truncBlock_of_le _ _ (by omega), blockOf_congr hm]
      have hsum : k / 2 + (k - k / 2) = k := by omega
      have harg : (u128 (n * (blockOf (k / 2) n).cc + (blockOf (k / 2) n).d) >>> (k / 2))
          % 2 ^ (k - k / 2) = Siter (k / 2) n % 2 ^ (k - k / 2) :=
        second_arg_mod 128 n (k / 2) (k - k / 2) (by omega)
      rw [helper128, if_neg (by unfold THRESHOLD64; omega)]
      simp only [hk1, e1]
      rw [e2]
      · simp only []
        rw [combine_trunc, hsum, u64_of_lt (blockOf_ans_lt k n (by omega))]
        rfl
      · split
        · rw [bzh128_lt64 _ _ (by omega), Nat.mod_mod]; exact harg
        · exact harg

/-- Up to 40 bits `helper128` returns the exact block. -/
theorem helper128_eq_blockOf (strip : Bool) (k fuel n : Nat) (hk : k ≤ 40) (hf : k + 1 ≤ fuel) :
    helper128 strip fuel n k = some (blockOf k n) := by
  rw [helper128_eq_trunc strip k (by omega) fuel n hf, truncBlock_of_le k n hk]

/-! ## More fuel never changes a result -/

theorem helper64_mono (strip : Bool) :
    ∀ fuel n k b, helper64 strip fuel n k = some b → helper64 strip (fuel + 1) n k = some b := by
  intro fuel
  induction fuel with
  | zero => intro n k b h; simp [helper64] at h
  | succ f ih =>
    intro n k b h
    rw [helper64] at h ⊢
    by_cases ht : 2 ≤ k ∧ k ≤ 7
    · have hk : k = 2 ∨ k = 3 ∨ k = 4 ∨ k = 5 ∨ k = 6 ∨ k = 7 := by omega
      rcases hk with rfl | rfl | rfl | rfl | rfl | rfl <;> simpa using h
    · rw [if_neg (by omega), if_neg (by omega), if_neg (by omega), if_neg (by omega),
        if_neg (by omega), if_neg (by omega)] at h ⊢
      simp only [] at h ⊢
      generalize (if strip = true then bzh64 n (k >>> 1) else n) = a at h ⊢
      cases h1 : helper64 strip f a (k >>> 1) with
      | none => rw [h1] at h; exact absurd h (by simp)
      | some b1 =>
        rw [h1] at h
        rw [ih _ _ _ h1]
        simp only [] at h ⊢
        generalize (if strip = true then bzh64 (u64 (n * b1.cc + b1.d) >>> (k >>> 1)) (k - k >>> 1)
            else u64 (n * b1.cc + b1.d) >>> (k >>> 1)) = a2 at h ⊢
        cases h2' : helper64 strip f a2 (k - k >>> 1) with
        | none => rw [h2'] at h; exact absurd h (by simp)
        | some b2 =>
          rw [h2'] at h
          rw [ih _ _ _ h2']
          exact h

theorem helper128_mono (strip : Bool) :
    ∀ fuel n k b, helper128 strip fuel n k = some b →
      helper128 strip (fuel + 1) n k = some b := by
  intro fuel
  induction fuel with
  | zero => intro n k b h; simp [helper128] at h
  | succ f ih =>
    intro n k b h
    rw [helper128] at h ⊢
    by_cases ht : k < THRESHOLD64
    · rw [if_pos ht] at h ⊢
      by_cases hk1 : k = 1
      · rw [if_pos hk1] at h ⊢; exact h
      · rw [if_neg hk1] at h ⊢
        by_cases hk0 : k = 0
        · rw [if_pos hk0] at h ⊢; exact h
        · rw [if_neg hk0] at h ⊢
          exact helper64_mono strip _ _ _ _ h
    · rw [if_neg ht] at h ⊢
      simp only [] at h ⊢
      generalize (if strip = true then bzh128 n (k >>> 1) else n) = a at h ⊢
      cases h1 : helper128 strip f a (k >>> 1) with
      | none => rw [h1] at h; exact absurd h (by simp)
      | some b1 =>
        rw [h1] at h
        rw [ih _ _ _ h1]
        simp only [] at h ⊢
        generalize (if strip = true
            then bzh128 (u128 (n * b1.cc + b1.d) >>> (k >>> 1)) (k - k >>> 1)
            else u128 (n * b1.cc + b1.d) >>> (k >>> 1)) = a2 at h ⊢
        cases h2' : helper128 strip f a2 (k - k >>> 1) with
        | none => rw [h2'] at h; exact absurd h (by simp)
        | some b2 =>
          rw [h2'] at h
          rw [ih _ _ _ h2']
          exact h

theorem helper_mono (strip : Bool) :
    ∀ fuel n k b, helper strip fuel n k = some b → helper strip (fuel + 1) n k = some b := by
  intro fuel
  induction fuel with
  | zero => intro n k b h; simp [helper] at h
  | succ f ih =>
    intro n k b h
    rw [helper] at h ⊢
    by_cases ht : k < THRESHOLD128
    · rw [if_pos ht] at h ⊢
      by_cases ht2 : k < THRESHOLD64
      · rw [if_pos ht2] at h ⊢
        by_cases hk1 : k = 1
        · rw [if_pos hk1] at h ⊢; exact h
        · rw [if_neg hk1] at h ⊢
          by_cases hk0 : k = 0
          · rw [if_pos hk0] at h ⊢; exact h
          · rw [if_neg hk0] at h ⊢
            exact helper64_mono strip _ _ _ _ h
      · rw [if_neg ht2] at h ⊢
        exact helper128_mono strip _ _ _ _ h
    · rw [if_neg ht] at h ⊢
      simp only [] at h ⊢
      cases h1 : helper strip f (n % 2 ^ (k >>> 1)) (k >>> 1) with
      | none => rw [h1] at h; exact absurd h (by simp)
      | some b1 =>
        rw [h1] at h
        rw [ih _ _ _ h1]
        simp only [] at h ⊢
        cases h2' : helper strip f
            ((mpz_mullo k n b1.cc + b1.d) / 2 ^ (k >>> 1) % 2 ^ (k - k >>> 1)) (k - k >>> 1) with
        | none => rw [h2'] at h; exact absurd h (by simp)
        | some b2 =>
          rw [h2'] at h
          rw [ih _ _ _ h2']
          exact h

theorem map_some_mono {f g : Option Nat} {a r : Nat} (hfg : ∀ c, f = some c → g = some c)
    (h : f.map (fun c => u64 (a + c)) = some r) : g.map (fun c => u64 (a + c)) = some r := by
  cases hf : f with
  | none => rw [hf] at h; exact absurd h (by simp)
  | some c => rw [hf] at h; rw [hfg c hf]; exact h

/-- The three loops keep their result when given more fuel. -/
theorem loops_mono (strip : Bool) :
    ∀ fuel,
      (∀ n r, fastest_collatz strip fuel n = some r →
        fastest_collatz strip (fuel + 1) n = some r) ∧
      (∀ n r, collatz128 strip fuel n = some r → collatz128 strip (fuel + 1) n = some r) ∧
      (∀ n r, collatz64 strip fuel n = some r → collatz64 strip (fuel + 1) n = some r) := by
  intro fuel
  induction fuel with
  | zero =>
    refine ⟨?_, ?_, ?_⟩ <;> intro n r h
    · simp [fastest_collatz] at h
    · simp [collatz128] at h
    · simp [collatz64] at h
  | succ f ih =>
    obtain ⟨ihF, ih128, ih64⟩ := ih
    refine ⟨?_, ?_, ?_⟩
    · intro n r h
      rw [fastest_collatz] at h ⊢
      split_ifs at h ⊢ with hL
      · cases hb : helper strip f (n % 2 ^ (mpz_sizeinbase2 n >>> 1)) (mpz_sizeinbase2 n >>> 1) with
        | none => rw [hb] at h; exact absurd h (by simp)
        | some b =>
          rw [hb] at h
          rw [helper_mono strip _ _ _ _ hb]
          simp only [] at h ⊢
          exact map_some_mono (ihF _) h
      · exact ih128 _ _ h
    · intro n r h
      rw [collatz128] at h ⊢
      simp only [] at h ⊢
      by_cases hL : (128 - clz128 n) >>> 1 ≥ THRESHOLD64
      · rw [if_pos hL] at h ⊢
        generalize (if strip = true then bzh128 n ((128 - clz128 n) >>> 1) else n) = a at h ⊢
        cases hb : helper128 strip f a ((128 - clz128 n) >>> 1) with
        | none => rw [hb] at h; exact absurd h (by simp)
        | some b =>
          rw [hb] at h
          rw [helper128_mono strip _ _ _ _ hb]
          simp only [] at h ⊢
          split_ifs at h ⊢
          · exact map_some_mono (ihF _) h
          · exact map_some_mono (ih128 _) h
          · exact map_some_mono (ih128 _) h
      · rw [if_neg hL] at h ⊢
        exact ih64 _ _ h
    · intro n r h
      rw [collatz64] at h ⊢
      by_cases h7 : n > 7
      · rw [if_pos h7] at h ⊢
        simp only [] at h ⊢
        generalize (if strip = true then bzh64 n ((64 - clz64 n) >>> 1) else n) = a at h ⊢
        cases hb : helper64 strip f a ((64 - clz64 n) >>> 1) with
        | none => rw [hb] at h; exact absurd h (by simp)
        | some b =>
          rw [hb] at h
          rw [helper64_mono strip _ _ _ _ hb]
          simp only [] at h ⊢
          split_ifs at h ⊢
          · exact map_some_mono (ih128 _) h
          · exact map_some_mono (ih64 _) h
      · rw [if_neg h7] at h ⊢
        exact h

theorem mono_le {f : Nat → Nat → Option Nat}
    (hstep : ∀ fuel n r, f fuel n = some r → f (fuel + 1) n = some r)
    {fuel fuel' n r : Nat} (hle : fuel ≤ fuel') (h : f fuel n = some r) : f fuel' n = some r := by
  induction hle with
  | refl => exact h
  | step _ ih => exact hstep _ _ _ ih

theorem collatz64_mono_le (strip : Bool) {fuel fuel' n r : Nat} (hle : fuel ≤ fuel')
    (h : collatz64 strip fuel n = some r) : collatz64 strip fuel' n = some r :=
  mono_le (fun f => (loops_mono strip f).2.2) hle h

theorem collatz128_mono_le (strip : Bool) {fuel fuel' n r : Nat} (hle : fuel ≤ fuel')
    (h : collatz128 strip fuel n = some r) : collatz128 strip fuel' n = some r :=
  mono_le (fun f => (loops_mono strip f).2.1) hle h

theorem helper64_mono_le (strip : Bool) {fuel fuel' n k : Nat} {b : Block} (hle : fuel ≤ fuel')
    (h : helper64 strip fuel n k = some b) : helper64 strip fuel' n k = some b := by
  induction hle with
  | refl => exact h
  | step _ ih => exact helper64_mono strip _ _ _ _ ih

theorem helper128_mono_le (strip : Bool) {fuel fuel' n k : Nat} {b : Block} (hle : fuel ≤ fuel')
    (h : helper128 strip fuel n k = some b) : helper128 strip fuel' n k = some b := by
  induction hle with
  | refl => exact h
  | step _ ih => exact helper128_mono strip _ _ _ _ ih

/-! ## The 64-bit and the 128-bit loop on 64-bit values -/

/-- Whatever the fuel, a block returned by `helper64` for `2 ≤ k ≤ 40` is the exact one. -/
theorem helper64_some (strip : Bool) {fuel x k : Nat} {b : Block} (h2 : 2 ≤ k) (h40 : k ≤ 40)
    (h : helper64 strip fuel x k = some b) : b = blockOf k x := by
  have h1 := helper64_mono_le strip (Nat.le_max_left fuel k) h
  rw [helper64_eq_blockOf strip k h2 h40 _ x (Nat.le_max_right fuel k)] at h1
  exact (Option.some.inj h1).symm

/-- Whatever the fuel, a block returned by `helper128` for `k ≤ 40` is the exact one. -/
theorem helper128_some (strip : Bool) {fuel x k : Nat} {b : Block} (h40 : k ≤ 40)
    (h : helper128 strip fuel x k = some b) : b = blockOf k x := by
  have h1 := helper128_mono_le strip (Nat.le_max_left fuel (k + 1)) h
  rw [helper128_eq_blockOf strip k _ x h40 (Nat.le_max_right fuel (k + 1))] at h1
  exact (Option.some.inj h1).symm

/-- Up to 79 bits `fastest_collatz` hands its argument to `collatz128` at once. -/
theorem fastest_collatz_delegate (strip : Bool) (fuel n : Nat) (h : n < 2 ^ 79) :
    fastest_collatz strip (fuel + 1) n = collatz128 strip fuel n := by
  have hb : bitlen n ≤ 79 := bitlen_le_of_lt h
  have h128 : n < 2 ^ 128 :=
    lt_of_lt_of_le h (Nat.pow_le_pow_right (by norm_num) (by norm_num))
  have hsz : mpz_sizeinbase2 n >>> 1 < THRESHOLD128 := by
    rw [shiftRight_one]
    unfold mpz_sizeinbase2 THRESHOLD128
    split <;> omega
  rw [fastest_collatz, if_neg (by omega)]
  unfold mpz_get_ui128
  rw [u128_of_lt h128]

/-- Below 40 bits `collatz128` hands its argument to `collatz64` at once. -/
theorem collatz128_delegate (strip : Bool) (fuel n : Nat) (h : n < 2 ^ 64)
    (hL : bitlen n / 2 < 20) : collatz128 strip (fuel + 1) n = collatz64 strip fuel n := by
  have hL' : (128 - clz128 n) >>> 1 < THRESHOLD64 := by
    rw [shiftRight_one, clz128_of_lt h]; unfold THRESHOLD64; exact hL
  rw [collatz128, if_neg (by omega), u64_of_lt h]

theorem mpz_sizeinbase2_lt {t : Nat} (h : t < 2 ^ 127) : ¬ mpz_sizeinbase2 t ≥ 128 := by
  have := bitlen_le_of_lt h
  unfold mpz_sizeinbase2
  split <;> omega

/-- One iteration of the loop of `collatz128` on a 64-bit value: both the GMP branch and
the native branch continue with the exact shifted value. -/
theorem collatz128_iter (strip : Bool) (fuel n : Nat) (b : Block) (hn : n < 2 ^ 64)
    (hL : 20 ≤ bitlen n / 2)
    (hb : helper128 strip fuel (if strip = true then bzh128 n (bitlen n / 2) else n)
      (bitlen n / 2) = some b)
    (hc : b.cc < 2 ^ 64) (hd : b.d < 2 ^ 64) :
    collatz128 strip (fuel + 1) n =
      (collatz128 strip fuel ((n * b.cc + b.d) / 2 ^ (bitlen n / 2))).map
        (fun c => u64 (b.ans + c)) := by
  have hk : (128 - clz128 n) >>> 1 = bitlen n / 2 := by rw [shiftRight_one, clz128_of_lt hn]
  have hprod : n * b.cc ≤ (2 ^ 64 - 1) * (2 ^ 64 - 1) := Nat.mul_le_mul (by omega) (by omega)
  have hX : n * b.cc + b.d < 2 ^ 128 := by
    have : (2 ^ 64 - 1) * (2 ^ 64 - 1) + 2 ^ 64 ≤ 2 ^ 128 := by norm_num
    omega
  have hX' : n * b.cc < 2 ^ 128 := by omega
  have htn : (n * b.cc + b.d) / 2 ^ (bitlen n / 2) < 2 ^ 127 := by
    apply Nat.div_lt_of_lt_mul
    have h1 : 2 ^ 1 ≤ 2 ^ (bitlen n / 2) := Nat.pow_le_pow_right (by norm_num) (by omega)
    have h2 : (2 : Nat) ^ 128 = 2 ^ 1 * 2 ^ 127 := by norm_num
    calc n * b.cc + b.d < 2 ^ 128 := hX
      _ = 2 ^ 1 * 2 ^ 127 := h2
      _ ≤ 2 ^ (bitlen n / 2) * 2 ^ 127 := Nat.mul_le_mul_right _ h1
  have htn' : (n * b.cc + b.d) / 2 ^ (bitlen n / 2) < 2 ^ 128 :=
    lt_of_lt_of_le htn (Nat.pow_le_pow_right (by norm_num) (by norm_num))
  rw [collatz128]
  simp only [hk]
  rw [if_pos (by unfold THRESHOLD64; omega), hb]
  simp only []
  split_ifs with hg hs
  · exact absurd hs (mpz_sizeinbase2_lt htn)
  · unfold mpz_get_ui128
    rw [u128_of_lt htn']
  · rw [u128_of_lt hX', u128_of_lt hX, Nat.shiftRight_eq_div_pow]

/-- Every result of `collatz64` on a 64-bit value is a result of `collatz128` on it. -/
theorem collatz64_to_collatz128 (strip : Bool) :
    ∀ fuel n r, n < 2 ^ 64 → collatz64 strip fuel n = some r →
      ∃ fuel', collatz128 strip fuel' n = some r := by
  intro fuel
  induction fuel with
  | zero => intro n r _ h; simp [collatz64] at h
  | succ f ih =>
    intro n r hn h
    by_cases hL : bitlen n / 2 < 20
    · exact ⟨f + 2, by rw [collatz128_delegate strip (f + 1) n hn hL]; exact h⟩
    · have h7 : 7 < n := by
        by_contra h7
        have : n < 2 ^ 3 := by norm_num; omega
        have := bitlen_le_of_lt this
        omega
      obtain ⟨hk2, hk32⟩ := L2_bounds h7 hn
      have hk : (64 - clz64 n) >>> 1 = bitlen n / 2 := by rw [shiftRight_one, sub_clz64 hn]
      -- the block `collatz64` obtained
      have hsome : ∃ b, helper64 strip f (if strip = true then bzh64 n (bitlen n / 2) else n)
          (bitlen n / 2) = some b := by
        rw [collatz64, if_pos h7] at h
        simp only [hk] at h
        cases hb : helper64 strip f (if strip = true then bzh64 n (bitlen n / 2) else n)
            (bitlen n / 2) with
        | none => rw [hb] at h; exact absurd h (by simp)
        | some b => exact ⟨b, rfl⟩
      obtain ⟨b, hb⟩ := hsome
      have hbe : b = blockOf (bitlen n / 2) n := by
        have := helper64_some strip hk2 (by omega) hb
        rw [this]
        split
        · rw [bzh64_eq_mod, blockOf_mod]
        · rfl
      obtain ⟨hdlt, hclt, _⟩ := blockOf_lt (bitlen n / 2) n (by omega)
      rw [← hbe] at hdlt hclt
      rw [collatz64_iter strip f n b h7 hn hb hclt hdlt] at h
      -- the result of the rest of the run, in whichever loop it goes on
      have hrest : ∃ F r', collatz128 strip F ((n * b.cc + b.d) / 2 ^ (bitlen n / 2)) = some r' ∧
          u64 (b.ans + r') = r := by
        split_ifs at h with hfit
        · cases hc : collatz64 strip f ((n * b.cc + b.d) / 2 ^ (bitlen n / 2)) with
          | none => rw [hc] at h; exact absurd h (by simp)
          | some r' =>
            rw [hc] at h
            obtain ⟨F, hF⟩ := ih _ r' hfit hc
            exact ⟨F, r', hF, by simpa using h⟩
        · cases hc : collatz128 strip f ((n * b.cc + b.d) / 2 ^ (bitlen n / 2)) with
          | none => rw [hc] at h; exact absurd h (by simp)
          | some r' =>
            rw [hc] at h
            exact ⟨f, r', hc, by simpa using h⟩
      obtain ⟨F, r', hF, hr⟩ := hrest
      -- run `collatz128` with enough fuel for its helper and for the rest
      have hb128 : helper128 strip (max F (bitlen n / 2 + 1))
          (if strip = true then bzh128 n (bitlen n / 2) else n) (bitlen n / 2) = some b := by
        rw [helper128_eq_blockOf strip _ _ _ (by omega) (Nat.le_max_right _ _), hbe]
        split
        · rw [bzh128_lt64 _ _ (by omega), blockOf_mod]
        · rfl
      refine ⟨max F (bitlen n / 2 + 1) + 1, ?_⟩
      rw [collatz128_iter strip _ n b hn (by omega) hb128 hclt hdlt,
        collatz128_mono_le strip (Nat.le_max_left _ _) hF, Option.map_some', hr]

/-- Every result of `collatz128` on a 64-bit value is a result of `collatz64` on it. -/
theorem collatz128_to_collatz64 (strip : Bool) :
    ∀ fuel n r, n < 2 ^ 64 → collatz128 strip fuel n = some r →
      ∃ fuel', collatz64 strip fuel' n = some r := by
  intro fuel
  induction fuel with
  | zero => intro n r _ h; simp [collatz128] at h
  | succ f ih =>
    intro n r hn h
    by_cases hL : bitlen n / 2 < 20
    · exact ⟨f, by rw [← collatz128_delegate strip f n hn hL]; exact h⟩
    · have h7 : 7 < n := by
        by_contra h7
        have : n < 2 ^ 3 := by norm_num; omega
        have := bitlen_le_of_lt this
        omega
      obtain ⟨hk2, hk32⟩ := L2_bounds h7 hn
      have hk : (128 - clz128 n) >>> 1 = bitlen n / 2 := by
        rw [shiftRight_one, clz128_of_lt hn]
      have hsome : ∃ b, helper128 strip f (if strip = true then bzh128 n (bitlen n / 2) else n)
          (bitlen n / 2) = some b := by
        rw [collatz128] at h
        simp only [hk] at h
        rw [if_pos (by unfold THRESHOLD64; omega)] at h
        cases hb : helper128 strip f (if strip = true then bzh128 n (bitlen n / 2) else n)
            (bitlen n / 2) with
        | none => rw [hb] at h; exact absurd h (by simp)
        | some b => exact ⟨b, rfl⟩
      obtain ⟨b, hb⟩ := hsome
      have hbe : b = blockOf (bitlen n / 2) n := by
        have := helper128_some strip (by omega) hb
        rw [this]
        split
        · rw [bzh128_lt64 _ _ (by omega), blockOf_mod]
        · rfl
      obtain ⟨hdlt, hclt, _⟩ := blockOf_lt (bitlen n / 2) n (by omega)
      rw [← hbe] at hdlt hclt
      rw [collatz128_iter strip f n b hn (by omega) hb hclt hdlt] at h
      cases hc : collatz128 strip f ((n * b.cc + b.d) / 2 ^ (bitlen n / 2)) with
      | none => rw [hc] at h; exact absurd h (by simp)
      | some r' =>
        rw [hc] at h
        have hr : u64 (b.ans + r') = r := by simpa using h
        by_cases hfit : (n * b.cc + b.d) / 2 ^ (bitlen n / 2) < 2 ^ 64
        · obtain ⟨g, hg⟩ := ih _ r' hfit hc
          have hb64 : helper64 strip (max g (bitlen n / 2))
              (if strip = true then bzh64 n (bitlen n / 2) else n) (bitlen n / 2) = some b := by
            rw [helper64_eq_blockOf strip _ hk2 (by omega) _ _ (Nat.le_max_right _ _), hbe]
            split
            · rw [bzh64_eq_mod, blockOf_mod]
            · rfl
          refine ⟨max g (bitlen n / 2) + 1, ?_⟩
          rw [collatz64_iter strip _ n b h7 hn hb64 hclt hdlt, if_pos hfit,
            collatz64_mono_le strip (Nat.le_max_left _ _) hg, Option.map_some', hr]
        · have hb64 : helper64 strip (max f (bitlen n / 2))
              (if strip = true then bzh64 n (bitlen n / 2) else n) (bitlen n / 2) = some b := by
            rw [helper64_eq_blockOf strip _ hk2 (by omega) _ _ (Nat.le_max_right _ _), hbe]
            split
            · rw [bzh64_eq_mod, blockOf_mod]
            · rfl
          refine ⟨max f (bitlen n / 2) + 1, ?_⟩
          rw [collatz64_iter strip _ n b h7 hn hb64 hclt hdlt, if_neg hfit,
            collatz128_mono_le strip (Nat.le_max_left _ _) hc, Option.map_some', hr]

/-! ## Leading zeros, the overflow guard and the loop of `collatz128` -/

theorem bitlen_eq_of_bounds {n w : Nat} (h1 : 2 ^ w ≤ n) (h2 : n < 2 ^ (w + 1)) :
    bitlen n = w + 1 := by
  have := lt_bitlen_of_le h1
  have := bitlen_le_of_lt h2
  omega

theorem bitlen_pos {n : Nat} (h : 0 < n) : 0 < bitlen n :=
  lt_bitlen_of_le (w := 0) (by rw [pow_zero]; exact h)

theorem two_pow_pred_bitlen_le {n : Nat} (h : 0 < n) : 2 ^ (bitlen n - 1) ≤ n := by
  have h1 := two_pow_bitlen_le n h
  have hb := bitlen_pos h
  obtain ⟨w, hw⟩ : ∃ w, bitlen n = w + 1 := ⟨bitlen n - 1, by omega⟩
  rw [hw, pow_succ] at h1
  rw [hw, Nat.add_sub_cancel]
  exact Nat.le_of_mul_le_mul_right (by rw [Nat.mul_comm n 2]; exact h1) (by norm_num)

theorem bitlen_high_word {n : Nat} (h : 2 ^ 64 ≤ n) : bitlen n = bitlen (n / 2 ^ 64) + 64 := by
  have hq : 0 < n / 2 ^ 64 := Nat.div_pos h (Nat.two_pow_pos 64)
  have h1 := two_pow_pred_bitlen_le hq
  have h2 := lt_two_pow_bitlen (n / 2 ^ 64)
  have hb := bitlen_pos hq
  obtain ⟨w, hw⟩ : ∃ w, bitlen (n / 2 ^ 64) = w + 1 := ⟨bitlen (n / 2 ^ 64) - 1, by omega⟩
  rw [hw] at h1 h2 ⊢
  rw [Nat.add_sub_cancel] at h1
  have hlow : 2 ^ (w + 64) ≤ n := by
    rw [pow_add]
    calc 2 ^ w * 2 ^ 64 ≤ n / 2 ^ 64 * 2 ^ 64 := Nat.mul_le_mul_right _ h1
      _ ≤ n := Nat.div_mul_le_self n _
  have hhigh : n < 2 ^ (w + 64 + 1) := by
    have e : 2 ^ (w + 64 + 1) = 2 ^ (w + 1) * 2 ^ 64 := by
      rw [← pow_add]
    rw [e]
    exact (Nat.div_lt_iff_lt_mul (Nat.two_pow_pos 64)).1 h2
  rw [bitlen_eq_of_bounds hlow hhigh]

/-- For a 128-bit value `128 - clz128` is the bit length. -/
theorem sub_clz128 {n : Nat} (h : n < 2 ^ 128) : 128 - clz128 n = bitlen n := by
  by_cases h64 : n < 2 ^ 64
  · exact clz128_of_lt h64
  · have hge : 2 ^ 64 ≤ n := by omega
    have hq : n / 2 ^ 64 < 2 ^ 64 := by
      apply Nat.div_lt_of_lt_mul
      calc n < 2 ^ 128 := h
        _ = 2 ^ 64 * 2 ^ 64 := by norm_num
    have hq0 : 0 < n / 2 ^ 64 := Nat.div_pos hge (by norm_num)
    have hhi : u64 (n >>> 64) = n / 2 ^ 64 := by
      rw [Nat.shiftRight_eq_div_pow]; exact u64_of_lt hq
    have hb := bitlen_le_of_lt hq
    simp only [clz128, hhi, my_clz, ne_eq, if_pos (Nat.pos_iff_ne_zero.mp hq0)]
    rw [bitlen_high_word hge]
    omega

theorem clz128_eq {n : Nat} (h : n < 2 ^ 128) : clz128 n = 128 - bitlen n := by
  have h1 := sub_clz128 h
  have h2 := bitlen_le_of_lt h
  by_cases h64 : n < 2 ^ 64
  · have hhi : u64 (n >>> 64) = 0 := by
      rw [Nat.shiftRight_eq_div_pow, Nat.div_eq_of_lt h64]; rfl
    have hb := bitlen_le_of_lt h64
    simp only [clz128, hhi, u64_of_lt h64, my_clz, ne_eq, not_true_eq_false, if_false]
    omega
  · have hge : 2 ^ 64 ≤ n := by omega
    have hq : n / 2 ^ 64 < 2 ^ 64 := by
      apply Nat.div_lt_of_lt_mul
      calc n < 2 ^ 128 := h
        _ = 2 ^ 64 * 2 ^ 64 := by norm_num
    have hq0 : 0 < n / 2 ^ 64 := Nat.div_pos hge (by norm_num)
    have hhi : u64 (n >>> 64) = n / 2 ^ 64 := by
      rw [Nat.shiftRight_eq_div_pow]; exact u64_of_lt hq
    have hb := bitlen_le_of_lt hq
    simp only [clz128, hhi, my_clz, ne_eq, if_pos (Nat.pos_iff_ne_zero.mp hq0)]
    rw [bitlen_high_word hge]
    omega

/-- The guard of `collatz128` compares bit lengths: it holds exactly when the bit
lengths of `n` and `cc` add up to more than 64. -/
theorem guard_iff {n cc : Nat} (hn : n < 2 ^ 128) (hc : cc < 2 ^ 64) :
    clz128 n + clz64 cc < 128 ↔ 64 < bitlen n + bitlen cc := by
  have h1 := bitlen_le_of_lt hn
  have h2 := bitlen_le_of_lt hc
  rw [clz128_eq hn, clz64_eq]
  omega

theorem mul_lt_two_pow_bitlen (n cc : Nat) : n * cc < 2 ^ (bitlen n + bitlen cc) := by
  rw [pow_add]
  exact Nat.mul_lt_mul'' (lt_two_pow_bitlen n) (lt_two_pow_bitlen cc)

/-- When the guard is false the product fits 64 bits, so nothing overflows 128 bits. -/
theorem no_overflow_of_not_guard {n cc d : Nat} (hn : n < 2 ^ 128) (hc : cc < 2 ^ 64)
    (hd : d < 2 ^ 64) (hg : ¬ clz128 n + clz64 cc < 128) :
    n * cc < 2 ^ 64 ∧ n * cc + d < 2 ^ 128 := by
  have hle : bitlen n + bitlen cc ≤ 64 := by
    have := (guard_iff hn hc).not.1 hg
    omega
  have h1 := mul_lt_two_pow_bitlen n cc
  have h2 : 2 ^ (bitlen n + bitlen cc) ≤ 2 ^ 64 := Nat.pow_le_pow_right (by norm_num) hle
  have h3 : n * cc < 2 ^ 64 := lt_of_lt_of_le h1 h2
  have e : (2 : Nat) ^ 64 + 2 ^ 64 ≤ 2 ^ 128 := by norm_num
  exact ⟨h3, by omega⟩

theorem mpz_sizeinbase2_ge_iff (t : Nat) : mpz_sizeinbase2 t ≥ 128 ↔ 2 ^ 127 ≤ t := by
  unfold mpz_sizeinbase2
  constructor
  · intro h
    by_contra hlt
    have := bitlen_le_of_lt (n := t) (w := 127) (by omega)
    split at h <;> omega
  · intro h
    have h0 : t ≠ 0 := by
      intro h0; subst h0; simp at h
    have := lt_bitlen_of_le h
    rw [if_neg h0]
    omega

/-- One iteration of the loop of `collatz128`: the value goes on as
`(n * cc + d) >> L2`, in `fastest_collatz` when it has 128 bits or more and in the loop
itself otherwise, whichever branch multiplies. -/
theorem collatz128_step (strip : Bool) (fuel n : Nat) (b : Block) (hn : n < 2 ^ 128)
    (hL : 20 ≤ bitlen n / 2)
    (hb : helper128 strip fuel (if strip = true then bzh128 n (bitlen n / 2) else n)
      (bitlen n / 2) = some b)
    (hc : b.cc < 2 ^ 64) (hd : b.d < 2 ^ 64) :
    collatz128 strip (fuel + 1) n =
      if 2 ^ 127 ≤ (n * b.cc + b.d) / 2 ^ (bitlen n / 2) then
        (fastest_collatz strip fuel ((n * b.cc + b.d) / 2 ^ (bitlen n / 2))).map
          (fun c => u64 (b.ans + c))
      else
        (collatz128 strip fuel ((n * b.cc + b.d) / 2 ^ (bitlen n / 2))).map
          (fun c => u64 (b.ans + c)) := by
  have hk : (128 - clz128 n) >>> 1 = bitlen n / 2 := by rw [shiftRight_one, sub_clz128 hn]
  rw [collatz128]
  simp only [hk]
  rw [if_pos (by unfold THRESHOLD64; omega), hb]
  simp only []
  by_cases hg : clz128 n + clz64 b.cc < 128
  · rw [if_pos hg]
    by_cases hbig : 2 ^ 127 ≤ (n * b.cc + b.d) / 2 ^ (bitlen n / 2)
    · rw [if_pos hbig, if_pos ((mpz_sizeinbase2_ge_iff _).2 hbig)]
    · rw [if_neg hbig, if_neg (fun h => hbig ((mpz_sizeinbase2_ge_iff _).1 h))]
      unfold mpz_get_ui128
      rw [u128_of_lt (by
        have : (2 : Nat) ^ 127 ≤ 2 ^ 128 := by norm_num
        omega)]
  · obtain ⟨h64, h128⟩ := no_overflow_of_not_guard hn hc hd hg
    have hsmall : ¬ 2 ^ 127 ≤ (n * b.cc + b.d) / 2 ^ (bitlen n / 2) := by
      have h1 : (n * b.cc + b.d) / 2 ^ (bitlen n / 2) ≤ n * b.cc + b.d := Nat.div_le_self _ _
      have e : (2 : Nat) ^ 64 + 2 ^ 64 ≤ 2 ^ 127 := by norm_num
      omega
    have h128' : n * b.cc < 2 ^ 128 := by omega
    rw [if_neg hg, if_neg hsmall, u128_of_lt h128', u128_of_lt h128,
      Nat.shiftRight_eq_div_pow]

/-- The outputs of `helper128` are 64-bit words. -/
theorem helper128_lt (strip : Bool) {fuel x k : Nat} {b : Block}
    (h : helper128 strip fuel x k = some b) : b.cc < 2 ^ 64 ∧ b.d < 2 ^ 64 := by
  by_cases hk : k ≤ 40
  · have := helper128_some strip hk h
    rw [this]
    obtain ⟨hd, hc, _⟩ := blockOf_lt k x hk
    exact ⟨hc, hd⟩
  · cases fuel with
    | zero => simp [helper128] at h
    | succ f =>
      rw [helper128, if_neg (by unfold THRESHOLD64; omega)] at h
      simp only [] at h
      generalize (if strip = true then bzh128 x (k >>> 1) else x) = a at h
      cases h1 : helper128 strip f a (k >>> 1) with
      | none => rw [h1] at h; exact absurd h (by simp)
      | some b1 =>
        rw [h1] at h
        simp only [] at h
        generalize (if strip = true
            then bzh128 (u128 (x * b1.cc + b1.d) >>> (k >>> 1)) (k - k >>> 1)
            else u128 (x * b1.cc + b1.d) >>> (k >>> 1)) = a2 at h
        cases h2 : helper128 strip f a2 (k - k >>> 1) with
        | none => rw [h2] at h; exact absurd h (by simp)
        | some b2 =>
          rw [h2] at h
          have hb := (Option.some.inj h).symm
          rw [hb]
          exact ⟨Nat.mod_lt _ (by norm_num), Nat.mod_lt _ (by norm_num)⟩

/-! ## The arbitrary-precision `helper` is exact -/

theorem blockOf_u128 (k n : Nat) (hk : k ≤ 128) : blockOf k (u128 n) = blockOf k n := by
  apply blockOf_congr
  unfold u128
  exact Nat.mod_mod_of_dvd n (pow_dvd_pow 2 hk)

/-- The value `helper` passes to its second sub-call has the low bits of `S^k1 n`. -/
theorem mullo_arg_mod (n k1 k2 : Nat) :
    ((mpz_mullo (k1 + k2) n (blockOf k1 n).cc + (blockOf k1 n).d) / 2 ^ k1 % 2 ^ k2) % 2 ^ k2
      = Siter k1 n % 2 ^ k2 := by
  have h1 : (mpz_mullo (k1 + k2) n (blockOf k1 n).cc + (blockOf k1 n).d) % 2 ^ (k1 + k2)
      = (n * (blockOf k1 n).cc + (blockOf k1 n).d) % 2 ^ (k1 + k2) := by
    unfold mpz_mullo
    exact Nat.mod_add_mod _ _ _
  rw [Nat.mod_mod, ← mod_div_mod _ (k1 + k2) k1 k2 (le_refl _), h1,
    mod_div_mod _ (k1 + k2) k1 k2 (le_refl _), Siter_eq_div, Nat.mul_comm n]

/-- For every block size below `2^63` the GMP `helper` returns the exact block, once the
fuel exceeds the block size by two. -/
theorem helper_eq_blockOf (strip : Bool) :
    ∀ k, k < 2 ^ 63 → ∀ fuel n, k + 2 ≤ fuel → helper strip fuel n k = some (blockOf k n) := by
  intro k
  induction k using Nat.strong_induction_on with
  | _ k ih =>
    intro h63 fuel n hf
    obtain ⟨f, rfl⟩ : ∃ f, fuel = f + 1 := ⟨fuel - 1, by omega⟩
    by_cases h40 : k < 40
    · rw [helper, if_pos (by unfold THRESHOLD128; exact h40)]
      by_cases h20 : k < 20
      · rw [if_pos (by unfold THRESHOLD64; exact h20)]
        by_cases hk1 : k = 1
        · subst hk1
          rw [if_pos rfl, blockOf_one]
          have : mpz_get_ui n &&& 1 = n % 2 := by
            rw [and_mask_eq_mod _ 1 1 rfl]
            unfold mpz_get_ui u64
            exact Nat.mod_mod_of_dvd n (pow_dvd_pow 2 (by norm_num : 1 ≤ 64))
          simp only [this]
        · rw [if_neg hk1]
          by_cases hk0 : k = 0
          · subst hk0; rw [if_pos rfl]; rfl
          · rw [if_neg hk0]
            unfold mpz_get_ui
            rw [helper64_eq_blockOf strip k (by omega) (by omega) f _ (by omega),
              blockOf_u64 k n (by omega)]
      · rw [if_neg (by unfold THRESHOLD64; exact h20)]
        unfold mpz_get_ui128
        rw [helper128_eq_blockOf strip k f _ (by omega) (by omega),
          blockOf_u128 k n (by omega)]
    · have hk1 : k >>> 1 = k / 2 := shiftRight_one k
      have hsum : k / 2 + (k - k / 2) = k := by omega
      have e1 : helper strip f (n % 2 ^ (k / 2)) (k / 2) = some (blockOf (k / 2) n) := by
        rw [ih (k / 2) (by omega) (by omega) f _ (by omega), blockOf_mod]
      have e2 : ∀ m, m % 2 ^ (k - k / 2) = Siter (k / 2) n % 2 ^ (k - k / 2) →
          helper strip f m (k - k / 2) = some (blockOf (k - k / 2) (Siter (k / 2) n)) := by
        intro m hm
        rw [ih (k - k / 2) (by omega) (by omega) f _ (by omega), blockOf_congr hm]
      have harg := mullo_arg_mod n (k / 2) (k - k / 2)
      rw [hsum] at harg
      have hans : (blockOf k n).ans < 2 ^ 64 := by
        have ha := blockOf_ans k n
        have ho := oddCount_le k n
        have e : (2 : Nat) ^ 64 = 2 * 2 ^ 63 := by norm_num
        omega
      rw [helper, if_neg (by unfold THRESHOLD128; exact h40)]
      simp only [hk1, e1]
      rw [e2 _ harg]
      simp only []
      have hadd := blockOf_add (k / 2) (k - k / 2) n
      rw [hsum] at hadd
      have hans' : (blockOf (k / 2) n).ans + (blockOf (k - k / 2) (Siter (k / 2) n)).ans
          = (blockOf k n).ans := by rw [hadd]
      rw [u64_of_lt (by rw [hans']; exact hans), hadd]

/-! ## Termination of the block computation -/

/-- The function `helper64` has no base case for the sizes 0 and 1: no fuel is enough. -/
theorem helper64_none (strip : Bool) : ∀ fuel x k, k < 2 → helper64 strip fuel x k = none := by
  intro fuel
  induction fuel with
  | zero => intro x k _; rfl
  | succ f ih =>
    intro x k hk
    have hk1 : k >>> 1 = 0 := by rw [shiftRight_one]; omega
    rw [helper64, if_neg (by omega), if_neg (by omega), if_neg (by omega), if_neg (by omega),
      if_neg (by omega), if_neg (by omega)]
    simp only [hk1, ih _ 0 (by norm_num)]

theorem clog_half (k : Nat) (hk : 2 ≤ k) : Nat.clog 2 k = Nat.clog 2 (k - k / 2) + 1 := by
  rw [Nat.clog_of_two_le (by norm_num) hk]
  congr 2
  omega

theorem clog_half_le (k : Nat) : Nat.clog 2 (k / 2) ≤ Nat.clog 2 (k - k / 2) :=
  Nat.clog_mono_right 2 (by omega)

/-- For every size from 2 on `helper64` returns, with fuel `⌈log₂ k⌉`. -/
theorem helper64_isSome (strip : Bool) :
    ∀ k, 2 ≤ k → ∀ fuel x, Nat.clog 2 k ≤ fuel → (helper64 strip fuel x k).isSome = true := by
  intro k
  induction k using Nat.strong_induction_on with
  | _ k ih =>
    intro h2 fuel x hf
    have hpos : 0 < Nat.clog 2 k := Nat.clog_pos (by norm_num) h2
    obtain ⟨f, rfl⟩ : ∃ f, fuel = f + 1 := ⟨fuel - 1, by omega⟩
    by_cases hk7 : k ≤ 7
    · rw [helper64]
      split_ifs <;> first | rfl | omega
    · have hk1 : k >>> 1 = k / 2 := shiftRight_one k
      have hc := clog_half k h2
      have hc' := clog_half_le k
      rw [helper64, if_neg (by omega), if_neg (by omega), if_neg (by omega), if_neg (by omega),
        if_neg (by omega), if_neg (by omega)]
      simp only [hk1]
      generalize (if strip = true then bzh64 x (k / 2) else x) = a
      have h1 := ih (k / 2) (by omega) (by omega) f a (by omega)
      obtain ⟨b1, hb1⟩ := Option.isSome_iff_exists.1 h1
      rw [hb1]
      simp only []
      generalize (if strip = true then bzh64 (u64 (x * b1.cc + b1.d) >>> (k / 2)) (k - k / 2)
        else u64 (x * b1.cc + b1.d) >>> (k / 2)) = a2
      have h2' := ih (k - k / 2) (by omega) (by omega) f a2 (by omega)
      obtain ⟨b2, hb2⟩ := Option.isSome_iff_exists.1 h2'
      rw [hb2]
      rfl

/-- For every size `helper128` returns, with fuel `⌈log₂ k⌉ + 1`. -/
theorem helper128_isSome (strip : Bool) :
    ∀ k fuel x, Nat.clog 2 k + 1 ≤ fuel → (helper128 strip fuel x k).isSome = true := by
  intro k
  induction k using Nat.strong_induction_on with
  | _ k ih =>
    intro fuel x hf
    obtain ⟨f, rfl⟩ : ∃ f, fuel = f + 1 := ⟨fuel - 1, by omega⟩
    by_cases h20 : k < 20
    · rw [helper128, if_pos (by unfold THRESHOLD64; exact h20)]
      by_cases hk1 : k = 1
      · rw [if_pos hk1]; rfl
      · rw [if_neg hk1]
        by_cases hk0 : k = 0
        · rw [if_pos hk0]; rfl
        · rw [if_neg hk0]
          exact helper64_isSome strip k (by omega) f _ (by omega)
    · have hk1 : k >>> 1 = k / 2 := shiftRight_one k
      have hc := clog_half k (by omega)
      have hc' := clog_half_le k
      rw [helper128, if_neg (by unfold THRESHOLD64; exact h20)]
      simp only [hk1]
      generalize (if strip = true then bzh128 x (k / 2) else x) = a
      have h1 := ih (k / 2) (by omega) f a (by omega)
      obtain ⟨b1, hb1⟩ := Option.isSome_iff_exists.1 h1
      rw [hb1]
      simp only []
      generalize (if strip = true then bzh128 (u128 (x * b1.cc + b1.d) >>> (k / 2)) (k - k / 2)
        else u128 (x * b1.cc + b1.d) >>> (k / 2)) = a2
      have h2' := ih (k - k / 2) (by omega) f a2 (by omega)
      obtain ⟨b2, hb2⟩ := Option.isSome_iff_exists.1 h2'
      rw [hb2]
      rfl

/-- For every size the GMP `helper` returns, with fuel `⌈log₂ k⌉ + 2`. -/
theorem helper_isSome (strip : Bool) :
    ∀ k fuel x, Nat.clog 2 k + 2 ≤ fuel → (helper strip fuel x k).isSome = true := by
  intro k
  induction k using Nat.strong_induction_on with
  | _ k ih =>
    intro fuel x hf
    obtain ⟨f, rfl⟩ : ∃ f, fuel = f + 1 := ⟨fuel - 1, by omega⟩
    by_cases h40 : k < 40
    · rw [helper, if_pos (by unfold THRESHOLD128; exact h40)]
      by_cases h20 : k < 20
      · rw [if_pos (by unfold THRESHOLD64; exact h20)]
        by_cases hk1 : k = 1
        · rw [if_pos hk1]; rfl
        · rw [if_neg hk1]
          by_cases hk0 : k = 0
          · rw [if_pos hk0]; rfl
          · rw [if_neg hk0]
            exact helper64_isSome strip k (by omega) f _ (by omega)
      · rw [if_neg (by unfold THRESHOLD64; exact h20)]
        exact helper128_isSome strip k f _ (by omega)
    · have hk1 : k >>> 1 = k / 2 := shiftRight_one k
      have hc := clog_half k (by omega)
      have hc' := clog_half_le k
      rw [helper, if_neg (by unfold THRESHOLD128; exact h40)]
      simp only [hk1]
      have h1 := ih (k / 2) (by omega) f (x % 2 ^ (k / 2)) (by omega)
      obtain ⟨b1, hb1⟩ := Option.isSome_iff_exists.1 h1
      rw [hb1]
      simp only []
      have h2' := ih (k - k / 2) (by omega) f
        ((mpz_mullo k x b1.cc + b1.d) / 2 ^ (k / 2) % 2 ^ (k - k / 2)) (by omega)
      obtain ⟨b2, hb2⟩ := Option.isSome_iff_exists.1 h2'
      rw [hb2]
      rfl

/-! ## A block inside the elementary trajectory -/

theorem StepsTo.step_inv {n c : Nat} (h : StepsTo n c) (h1 : n ≠ 1) :
    ∃ c0, c = c0 + 1 ∧ StepsTo (T n) c0 := by
  cases h with
  | one => exact absurd rfl h1
  | step _ c0 _ h2 => exact ⟨c0, rfl, h2⟩

/-- If the first `m` values of the trajectory of `n` differ from `1`, the number of steps
of `n` is `m` plus the number of steps of the `m`-th value. -/
theorem stepsTo_iterate : ∀ (m n c : Nat), (∀ i, i < m → T^[i] n ≠ 1) →
    (StepsTo n c ↔ m ≤ c ∧ StepsTo (T^[m] n) (c - m)) := by
  intro m
  induction m with
  | zero => intro n c _; simp
  | succ m ih =>
    intro n c h
    have h1 : n ≠ 1 := h 0 (Nat.succ_pos m)
    have h' : ∀ i, i < m → T^[i] (T n) ≠ 1 := by
      intro i hi
      have := h (i + 1) (by omega)
      rwa [Function.iterate_succ_apply] at this
    rw [Function.iterate_succ_apply]
    constructor
    · intro hs
      obtain ⟨c0, rfl, hs0⟩ := hs.step_inv h1
      obtain ⟨hm, hs1⟩ := (ih (T n) c0 h').1 hs0
      refine ⟨by omega, ?_⟩
      have e : c0 + 1 - (m + 1) = c0 - m := by omega
      rw [e]; exact hs1
    · rintro ⟨hm, hs⟩
      obtain ⟨c0, rfl⟩ : ∃ c0, c = c0 + 1 := ⟨c - 1, by omega⟩
      have e : c0 + 1 - (m + 1) = c0 - m := by omega
      rw [e] at hs
      exact StepsTo.step n c0 h1 ((ih (T n) c0 h').2 ⟨by omega, hs⟩)

/-- After `k + oddCount k y` applications of `T` the trajectory of `y` is at `S^k y`. -/
theorem iterate_T_block : ∀ (k y : Nat), T^[k + oddCount k y] y = Siter k y := by
  intro k
  induction k with
  | zero => intro y; rfl
  | succ k ih =>
    intro y
    rcases Nat.mod_two_eq_zero_or_one y with he | ho
    · have e : k + 1 + oddCount (k + 1) y = (k + oddCount k (S y)) + 1 := by
        simp only [oddCount, he]; omega
      rw [e, Function.iterate_succ_apply, T_even he, ← S_even he, ih (S y)]
      rfl
    · have e : k + 1 + oddCount (k + 1) y = (k + oddCount k (S y)) + 1 + 1 := by
        simp only [oddCount, ho]; omega
      have hT : T (T y) = S y := by
        rw [T_odd ho, T_even (by omega), S_odd ho]
      rw [e, Function.iterate_succ_apply, Function.iterate_succ_apply, hT, ih (S y)]
      rfl

/-- A lower bound on `y, S y, ..., S^k y` is a lower bound on every value the trajectory
visits up to `S^k y`: the values `3y+1` in between are larger still. -/
theorem iterate_T_ge (m : Nat) : ∀ (k y : Nat), (∀ j, j ≤ k → m ≤ Siter j y) →
    ∀ i, i ≤ k + oddCount k y → m ≤ T^[i] y := by
  intro k
  induction k with
  | zero =>
    intro y h i hi
    have : i = 0 := by simp [oddCount] at hi; exact hi
    subst this
    exact h 0 (le_refl 0)
  | succ k ih =>
    intro y h i hi
    have h0 : m ≤ y := h 0 (Nat.zero_le _)
    have hS : ∀ j, j ≤ k → m ≤ Siter j (S y) := fun j hj => h (j + 1) (by omega)
    rcases Nat.mod_two_eq_zero_or_one y with he | ho
    · simp only [oddCount, he] at hi
      cases i with
      | zero => exact h0
      | succ i =>
        rw [Function.iterate_succ_apply, T_even he, ← S_even he]
        exact ih (S y) hS i (by omega)
    · simp only [oddCount, ho] at hi
      cases i with
      | zero => exact h0
      | succ i =>
        cases i with
        | zero =>
          rw [Function.iterate_succ_apply, T_odd ho]
          show m ≤ 3 * y + 1
          omega
        | succ i =>
          have hT : T (T y) = S y := by
            rw [T_odd ho, T_even (by omega), S_odd ho]
          rw [Function.iterate_succ_apply, Function.iterate_succ_apply, hT]
          exact ih (S y) hS i (by omega)

/-- Within a block of size `⌊bitlen n / 2⌋` every value `S^j n` keeps at least half of the
bits of `n`. -/
theorem Siter_ge_half (n j : Nat) (h : 0 < n) (hj : j ≤ bitlen n / 2) :
    2 ^ (bitlen n / 2 - 1) ≤ Siter j n := by
  have h1 := le_two_pow_mul_Siter j n
  have h2 := two_pow_pred_bitlen_le h
  have hb := bitlen_pos h
  have e : bitlen n - 1 = j + (bitlen n - 1 - j) := by omega
  rw [e, pow_add] at h2
  have h3 : 2 ^ (bitlen n - 1 - j) ≤ Siter j n :=
    Nat.le_of_mul_le_mul_left (le_trans h2 h1) (Nat.two_pow_pos j)
  exact le_trans (Nat.pow_le_pow_right (by norm_num) (by omega)) h3

theorem bitlen_mono {a b : Nat} (h : a ≤ b) : bitlen a ≤ bitlen b :=
  bitlen_le_of_lt (lt_of_le_of_lt h (lt_two_pow_bitlen b))

/-! ## How the bit length changes over one block -/

theorem blockOf_d_lt_mul (k y : Nat) :
    (blockOf k y).d + 2 ^ k ≤ (blockOf k y).cc * 2 ^ k := by
  induction k generalizing y with
  | zero => simp [blockOf]
  | succ k ih =>
    have hd := ih (S y)
    have hp := Nat.two_pow_pos k
    have hc : (blockOf k (S y)).cc ≤ (blockOf k (S y)).cc * 2 ^ k :=
      Nat.le_mul_of_pos_right _ hp
    have e2 : 2 ^ (k + 1) = 2 * 2 ^ k := by rw [pow_succ]; ring
    rcases Nat.mod_two_eq_zero_or_one y with h | h
    · simp only [blockOf, h, e2]
      simp only [Nat.zero_ne_one, if_false]
      have : (blockOf k (S y)).cc * (2 * 2 ^ k) = 2 * ((blockOf k (S y)).cc * 2 ^ k) := by ring
      rw [this]; omega
    · simp only [blockOf, h, e2, if_true]
      have : 3 * (blockOf k (S y)).cc * (2 * 2 ^ k) = 6 * ((blockOf k (S y)).cc * 2 ^ k) := by
        ring
      rw [this]; omega

/-- The value after a block has at least `bitlen n - k` bits. -/
theorem bitlen_Siter_ge (n k : Nat) (h : 0 < n) : bitlen n - k ≤ bitlen (Siter k n) := by
  by_cases hk : bitlen n - 1 < k
  · omega
  · have h1 := le_two_pow_mul_Siter k n
    have h2 := two_pow_pred_bitlen_le h
    have hb := bitlen_pos h
    have e : bitlen n - 1 = k + (bitlen n - 1 - k) := by omega
    rw [e, pow_add] at h2
    have h3 : 2 ^ (bitlen n - 1 - k) ≤ Siter k n :=
      Nat.le_of_mul_le_mul_left (le_trans h2 h1) (Nat.two_pow_pos k)
    have := lt_bitlen_of_le h3
    omega

/-- The value after a block is shorter than `n` when the multiplier is below `2^(k-1)`. -/
theorem bitlen_Siter_lt (n k : Nat) (h : 0 < n) (hk : 2 * k ≤ bitlen n)
    (hC : 2 * (blockOf k n).cc < 2 ^ k) : bitlen (Siter k n) < bitlen n := by
  have hb := bitlen_pos h
  have heq := blockOf_eq k n
  have hd := blockOf_d_lt_mul k n
  have hn := lt_two_pow_bitlen n
  have hP := Nat.two_pow_pos k
  have hPQ : 2 ^ k * 2 ^ k ≤ 2 ^ bitlen n := by
    rw [← pow_add]; exact Nat.pow_le_pow_right (by norm_num) (by omega)
  have hQ : 2 ^ bitlen n = 2 * 2 ^ (bitlen n - 1) := by
    rw [← pow_succ']; congr 1; omega
  generalize 2 ^ bitlen n = Q at hn hPQ hQ
  generalize 2 ^ k = P at heq hd hP hPQ hC
  generalize (blockOf k n).cc = c at heq hd hC
  generalize (blockOf k n).d = d at heq hd
  generalize hv : Siter k n = v at heq
  have key : P * (2 * v) < P * Q := by nlinarith
  have h2v : 2 * v < Q := Nat.lt_of_mul_lt_mul_left key
  have hlt : v < 2 ^ (bitlen n - 1) := by omega
  have := bitlen_le_of_lt hlt
  omega

/-- The value after a block is larger than `n` when the multiplier exceeds `2^k`. -/
theorem Siter_gt (n k : Nat) (h : 0 < n) (hC : 2 ^ k < (blockOf k n).cc) : n < Siter k n := by
  have heq := blockOf_eq k n
  have h1 : 2 ^ k * n < (blockOf k n).cc * n := Nat.mul_lt_mul_of_pos_right hC h
  have h2 : 2 ^ k * n < 2 ^ k * Siter k n := by omega
  exact Nat.lt_of_mul_lt_mul_left h2

/-! ## Main results -/

/-- C1, refuted on the code: `fastest_collatz` does not return the Collatz step count of
`2^79 - 1`.  The trajectory of this number reaches 1 after 940 applications of `T`;
the function returns 1070, with `STRIP_MSBITS` set to 0 as well as to 1. -/
theorem fastest_collatz_wrong_count :
    fastest_collatz false 64 (2 ^ 79 - 1) = some 1070 ∧
      fastest_collatz true 64 (2 ^ 79 - 1) = some 1070 ∧
      naive_steps 940 (2 ^ 79 - 1) = some 940 := by
  decide!

/-- C2: for every `n` from 1 to 100000 direct simulation reaches 1 after some number `c`
of applications of `T`, and `fastest_collatz` returns this `c` (for either setting
of `STRIP_MSBITS`, once the fuel exceeds `c + 2`). -/
theorem fastest_collatz_eq_direct_simulation (strip : Bool) (n : Nat) (h1 : 1 ≤ n)
    (hn : n ≤ 100000) :
    ∃ c, naive_steps c n = some c ∧ StepsTo n c ∧
      ∀ fuel, c + 3 ≤ fuel → fastest_collatz strip fuel n = some c := by
  obtain ⟨c, hc, hle⟩ := reaches_one_upto n h1 hn
  have hc64 : c < 2 ^ 64 := by
    have : (2 : Nat) ^ 64 = 18446744073709551616 := by norm_num
    omega
  have h39 : n < 2 ^ 39 := by
    have : (2 : Nat) ^ 39 = 549755813888 := by norm_num
    omega
  refine ⟨c, naive_steps_complete hc.toStepsTo c (le_refl c), hc.toStepsTo, ?_⟩
  intro fuel hf
  obtain ⟨f, rfl⟩ : ∃ f, fuel = f + 2 := ⟨fuel - 2, by omega⟩
  rw [fastest_collatz_small strip f n h39]
  exact collatz64_correct strip c n hc hc64 f (by omega)

/-- The statement of C2 at `n = 27`. -/
theorem fastest_collatz_eq_direct_simulation_witness :
    (1 ≤ 27 ∧ 27 ≤ 100000) ∧
      ∃ c, naive_steps c 27 = some c ∧ StepsTo 27 c ∧
        ∀ fuel, c + 3 ≤ fuel → fastest_collatz false fuel 27 = some c :=
  ⟨⟨by decide, by decide⟩,
    fastest_collatz_eq_direct_simulation false 27 (by decide) (by decide)⟩

/-- C3: for `2 ≤ k ≤ 32` and every `x`, `helper64(x, k)` returns `(C, D, A)` such that for
every `y` congruent to `x` modulo `2^k`: `C * y + D = 2^k * S^k(y)`, `A` is `k` plus the
number of odd values among `y, S y, ..., S^(k-1) y`, and `C = 3^(A - k)`. -/
theorem helper64_block_transform (strip : Bool) (k x fuel : Nat) (h2 : 2 ≤ k) (h32 : k ≤ 32)
    (hf : k ≤ fuel) :
    ∃ b, helper64 strip fuel x k = some b ∧
      ∀ y, y % 2 ^ k = x % 2 ^ k →
        b.cc * y + b.d = 2 ^ k * Siter k y ∧ b.ans = k + oddCount k y ∧
          b.cc = 3 ^ (b.ans - k) := by
  refine ⟨blockOf k x, helper64_eq_blockOf strip k h2 (by omega) fuel x hf, ?_⟩
  intro y hy
  rw [← blockOf_congr hy]
  refine ⟨blockOf_eq k y, blockOf_ans k y, ?_⟩
  rw [blockOf_cc, blockOf_ans, Nat.add_sub_cancel_left]

/-- The statement of C3 at `k = 9`, `x = 27`. -/
theorem helper64_block_transform_witness :
    (2 ≤ 9 ∧ 9 ≤ 32 ∧ 9 ≤ 9) ∧
      ∃ b, helper64 false 9 27 9 = some b ∧
        ∀ y, y % 2 ^ 9 = 27 % 2 ^ 9 →
          b.cc * y + b.d = 2 ^ 9 * Siter 9 y ∧ b.ans = 9 + oddCount 9 y ∧
            b.cc = 3 ^ (b.ans - 9) :=
  ⟨⟨by decide, by decide, by decide⟩,
    helper64_block_transform false 9 27 9 (by decide) (by decide) (by decide)⟩

/-- Where the entry points do agree: on every `n < 2^64` the functions `collatz64` and
`fastest_collatz` have the same results (each returns `r` with some fuel exactly when the
other does), and on every `m < 2^79` the run of `fastest_collatz` is the run of
`collatz128`. -/
theorem representation_choice (strip : Bool) (n m : Nat) (hn : n < 2 ^ 64) (hm : m < 2 ^ 79) :
    (∀ r, (∃ fuel, collatz64 strip fuel n = some r) ↔
      (∃ fuel, fastest_collatz strip fuel n = some r)) ∧
    (∀ fuel, fastest_collatz strip (fuel + 1) m = collatz128 strip fuel m) := by
  have hn79 : n < 2 ^ 79 :=
    lt_of_lt_of_le hn (Nat.pow_le_pow_right (by norm_num) (by norm_num))
  refine ⟨fun r => ⟨?_, ?_⟩, fun fuel => fastest_collatz_delegate strip fuel m hm⟩
  · rintro ⟨fuel, h⟩
    obtain ⟨F, hF⟩ := collatz64_to_collatz128 strip fuel n r hn h
    exact ⟨F + 1, by rw [fastest_collatz_delegate strip F n hn79]; exact hF⟩
  · rintro ⟨fuel, h⟩
    cases fuel with
    | zero => simp [fastest_collatz] at h
    | succ F =>
      rw [fastest_collatz_delegate strip F n hn79] at h
      exact collatz128_to_collatz64 strip F n r hn h

/-- The agreement of the entry points at `n = 2^64 - 1` and `m = 2^79 - 1`. -/
theorem representation_choice_witness :
    (2 ^ 64 - 1 < 2 ^ 64 ∧ 2 ^ 79 - 1 < 2 ^ 79) ∧
    (∀ r, (∃ fuel, collatz64 false fuel (2 ^ 64 - 1) = some r) ↔
      (∃ fuel, fastest_collatz false fuel (2 ^ 64 - 1) = some r)) ∧
    (∀ fuel, fastest_collatz false (fuel + 1) (2 ^ 79 - 1)
      = collatz128 false fuel (2 ^ 79 - 1)) :=
  ⟨⟨by decide, by decide⟩,
    representation_choice false (2 ^ 64 - 1) (2 ^ 79 - 1) (by decide) (by decide)⟩

/-- C5: for `2 ≤ k1 + k2 ≤ 7` and every `x` (in particular `x < 2^(k1+k2)`), the block of
size `k1` for `x mod 2^k1` and the block of size `k2` for the intermediate value, both as
`helper128` gives them (closed forms for sizes 0 and 1, the tables of `helper64` for
sizes 2 to 7), combine to the table entry of `helper64` for `(x, k1 + k2)`. -/
theorem tables_composable (strip : Bool) (k1 k2 x fuel : Nat) (h2 : 2 ≤ k1 + k2)
    (h7 : k1 + k2 ≤ 7) (hf : 8 ≤ fuel) :
    ∃ b1 b2, helper128 strip fuel (x % 2 ^ k1) k1 = some b1 ∧
      helper128 strip fuel (((x * b1.cc + b1.d) >>> k1) % 2 ^ k2) k2 = some b2 ∧
      helper64 strip fuel x (k1 + k2)
        = some ⟨b1.d * b2.cc + b2.d * 2 ^ k1, b1.cc * b2.cc, b1.ans + b2.ans⟩ := by
  refine ⟨blockOf k1 x, blockOf k2 (Siter k1 x), ?_, ?_, ?_⟩
  · rw [helper128_eq_blockOf strip k1 fuel _ (by omega) (by omega), blockOf_mod]
  · rw [helper128_eq_blockOf strip k2 fuel _ (by omega) (by omega), blockOf_mod]
    apply congrArg
    apply blockOf_congr
    rw [Nat.shiftRight_eq_div_pow, Siter_eq_div, Nat.mul_comm x]
  · rw [helper64_eq_blockOf strip (k1 + k2) h2 (by omega) fuel x (by omega), blockOf_add]

/-- The statement of C5 at `k1 = 3`, `k2 = 4`, `x = 91`. -/
theorem tables_composable_witness :
    (2 ≤ 3 + 4 ∧ 3 + 4 ≤ 7 ∧ 8 ≤ 8) ∧
      ∃ b1 b2, helper128 false 8 (91 % 2 ^ 3) 3 = some b1 ∧
        helper128 false 8 (((91 * b1.cc + b1.d) >>> 3) % 2 ^ 4) 4 = some b2 ∧
        helper64 false 8 91 (3 + 4)
          = some ⟨b1.d * b2.cc + b2.d * 2 ^ 3, b1.cc * b2.cc, b1.ans + b2.ans⟩ :=
  ⟨⟨by decide, by decide, by decide⟩,
    tables_composable false 3 4 91 8 (by decide) (by decide) (by decide)⟩

/-- C6: `fastest_collatz` returns 0, 1, 7, 2, 5, 8, 16 for `n = 1, ..., 7`, and these are
the step counts that direct simulation finds. -/
theorem terminal_values (strip : Bool) :
    (fastest_collatz strip 3 1 = some 0 ∧ naive_steps 16 1 = some 0) ∧
    (fastest_collatz strip 3 2 = some 1 ∧ naive_steps 16 2 = some 1) ∧
    (fastest_collatz strip 3 3 = some 7 ∧ naive_steps 16 3 = some 7) ∧
    (fastest_collatz strip 3 4 = some 2 ∧ naive_steps 16 4 = some 2) ∧
    (fastest_collatz strip 3 5 = some 5 ∧ naive_steps 16 5 = some 5) ∧
    (fastest_collatz strip 3 6 = some 8 ∧ naive_steps 16 6 = some 8) ∧
    (fastest_collatz strip 3 7 = some 16 ∧ naive_steps 16 7 = some 16) := by
  cases strip <;> decide

/-- C7: `fastest_collatz(27) = 111`, which is also what direct simulation counts. -/
theorem fastest_collatz_27 (strip : Bool) :
    fastest_collatz strip 32 27 = some 111 ∧ naive_steps 111 27 = some 111 := by
  cases strip <;> decide!

/-- C8: the block depends only on the low `k` bits and not on `STRIP_MSBITS`: for
`x` and `y` congruent modulo `2^k`, `helper128` (for `0 ≤ k ≤ 63`) and `helper64` (for
`2 ≤ k ≤ 32`) return the same triple on `x` and on `y`, with or without masking; in
particular `helper64(x, k) = helper64(x mod 2^k, k)`.  Both calls do return. -/
theorem block_depends_on_low_bits (s1 s2 : Bool) (k fuel x y : Nat) (hk : k ≤ 63)
    (hf : k + 1 ≤ fuel) (hxy : x % 2 ^ k = y % 2 ^ k) :
    (helper128 s1 fuel x k = helper128 s2 fuel y k ∧
      (helper128 s1 fuel x k).isSome = true) ∧
    (2 ≤ k → k ≤ 32 →
      helper64 s1 fuel x k = helper64 s2 fuel y k ∧
      helper64 s1 fuel x k = helper64 s2 fuel (x % 2 ^ k) k ∧
      (helper64 s1 fuel x k).isSome = true) := by
  constructor
  · rw [helper128_eq_trunc s1 k (by omega) fuel x hf,
      helper128_eq_trunc s2 k (by omega) fuel y hf, blockOf_congr hxy]
    exact ⟨rfl, rfl⟩
  · intro h2 h32
    rw [helper64_eq_blockOf s1 k h2 (by omega) fuel x (by omega),
      helper64_eq_blockOf s2 k h2 (by omega) fuel y (by omega),
      helper64_eq_blockOf s2 k h2 (by omega) fuel (x % 2 ^ k) (by omega),
      blockOf_congr hxy, blockOf_mod, blockOf_congr hxy]
    exact ⟨rfl, rfl, rfl⟩

/-- The statement of C8 at `k = 9`, `x = 2^63 + 27`, `y = 27`. -/
theorem block_depends_on_low_bits_witness :
    (9 ≤ 63 ∧ 9 + 1 ≤ 10 ∧ (2 ^ 63 + 27) % 2 ^ 9 = 27 % 2 ^ 9) ∧
      (helper128 false 10 (2 ^ 63 + 27) 9 = helper128 true 10 27 9 ∧
        (helper128 false 10 (2 ^ 63 + 27) 9).isSome = true) ∧
      (2 ≤ 9 → 9 ≤ 32 →
        helper64 false 10 (2 ^ 63 + 27) 9 = helper64 true 10 27 9 ∧
        helper64 false 10 (2 ^ 63 + 27) 9 = helper64 true 10 ((2 ^ 63 + 27) % 2 ^ 9) 9 ∧
        (helper64 false 10 (2 ^ 63 + 27) 9).isSome = true) :=
  ⟨⟨by decide, by decide, by decide⟩,
    block_depends_on_low_bits false true 9 10 (2 ^ 63 + 27) 27 (by decide) (by decide)
      (by decide)⟩

/-- C9, refuted on the code: `collatz128` applies a multiplier truncated modulo `2^64`.
Started on `2^79 - 1` it first applies the exact block of 39 bits and then holds
`n = 3^39 * 2^40 - 1`, a value of 102 bits; for `k = 51` the exact multiplier is `3^43`,
and `helper128` returns `3^43 mod 2^64` (and `d` reduced likewise), which the guard of
`collatz128` sends to the multiplication. -/
theorem collatz128_truncated_block :
    helper128 false 64 (2 ^ 79 - 1) 39 = some ⟨3 ^ 39 - 2 ^ 39, 3 ^ 39, 78⟩ ∧
    ((2 ^ 79 - 1) * 3 ^ 39 + (3 ^ 39 - 2 ^ 39)) / 2 ^ 39 = 3 ^ 39 * 2 ^ 40 - 1 ∧
    (128 - clz128 (3 ^ 39 * 2 ^ 40 - 1)) >>> 1 = 51 ∧
    helper128 false 64 (3 ^ 39 * 2 ^ 40 - 1) 51
      = some ⟨(blockOf 51 (3 ^ 39 * 2 ^ 40 - 1)).d % 2 ^ 64, 3 ^ 43 % 2 ^ 64, 94⟩ ∧
    (blockOf 51 (3 ^ 39 * 2 ^ 40 - 1)).cc = 3 ^ 43 ∧
    3 ^ 43 % 2 ^ 64 ≠ 3 ^ 43 ∧
    (3 ^ 39 * 2 ^ 40 - 1) * (3 ^ 43 % 2 ^ 64) + (blockOf 51 (3 ^ 39 * 2 ^ 40 - 1)).d % 2 ^ 64
      ≠ 2 ^ 51 * Siter 51 (3 ^ 39 * 2 ^ 40 - 1) := by
  decide!

/-- C10: for `8 ≤ n < 2^64`, `k = bitlen(n) / 2` and `(C, D, A) = helper64(n, k)`, the apply
step of `collatz64` leaves `hi:lo` with `hi * 2^64 + lo = (n * C + D) / 2^k`, the carry of
the addition does not overflow `hi`, and `collatz64` goes on with this value in its own
loop when it is below `2^64` and in `collatz128` otherwise. -/
theorem collatz64_apply_exact (strip : Bool) (fuel n : Nat) (h8 : 8 ≤ n) (hn : n < 2 ^ 64)
    (hf : bitlen n / 2 ≤ fuel) :
    ∃ b, helper64 strip fuel (if strip = true then bzh64 n (bitlen n / 2) else n)
        (bitlen n / 2) = some b ∧
      (64 - clz64 n) >>> 1 = bitlen n / 2 ∧
      (my_mul64 n b.cc).2 + (my_add64 0 (my_mul64 n b.cc).1 b.d).1 < 2 ^ 64 ∧
      (apply64 n b.cc b.d (bitlen n / 2)).1 * 2 ^ 64 + (apply64 n b.cc b.d (bitlen n / 2)).2
        = (n * b.cc + b.d) / 2 ^ (bitlen n / 2) ∧
      collatz64 strip (fuel + 1) n =
        if (n * b.cc + b.d) / 2 ^ (bitlen n / 2) < 2 ^ 64 then
          (collatz64 strip fuel ((n * b.cc + b.d) / 2 ^ (bitlen n / 2))).map
            (fun c => u64 (b.ans + c))
        else
          (collatz128 strip fuel ((n * b.cc + b.d) / 2 ^ (bitlen n / 2))).map
            (fun c => u64 (b.ans + c)) := by
  have h7 : 7 < n := by omega
  obtain ⟨hk2, hk32⟩ := L2_bounds h7 hn
  have hb : helper64 strip fuel (if strip = true then bzh64 n (bitlen n / 2) else n)
      (bitlen n / 2) = some (blockOf (bitlen n / 2) n) := by
    rw [helper64_eq_blockOf strip _ hk2 (by omega) fuel _ hf]
    split
    · rw [bzh64_eq_mod, blockOf_mod]
    · rfl
  obtain ⟨hdlt, hclt, _⟩ := blockOf_lt (bitlen n / 2) n (by omega)
  have hL : bitlen n / 2 < 64 := by omega
  refine ⟨_, hb, ?_, ?_, ?_, ?_⟩
  · rw [shiftRight_one, sub_clz64 hn]
  · exact (apply64_eq n _ _ _ hn hclt hdlt hL).2.2
  · exact apply64_value n _ _ _ hn hclt hdlt hL
  · exact collatz64_iter strip fuel n _ h7 hn hb hclt hdlt

/-- The statement of C10 at `n = 2^64 - 1`. -/
theorem collatz64_apply_exact_witness :
    (8 ≤ 2 ^ 64 - 1 ∧ 2 ^ 64 - 1 < 2 ^ 64 ∧ bitlen (2 ^ 64 - 1) / 2 ≤ 32) ∧
    ∃ b, helper64 false 32 (if false = true then bzh64 (2 ^ 64 - 1) (bitlen (2 ^ 64 - 1) / 2)
          else 2 ^ 64 - 1) (bitlen (2 ^ 64 - 1) / 2) = some b ∧
      (64 - clz64 (2 ^ 64 - 1)) >>> 1 = bitlen (2 ^ 64 - 1) / 2 ∧
      (my_mul64 (2 ^ 64 - 1) b.cc).2 + (my_add64 0 (my_mul64 (2 ^ 64 - 1) b.cc).1 b.d).1
        < 2 ^ 64 ∧
      (apply64 (2 ^ 64 - 1) b.cc b.d (bitlen (2 ^ 64 - 1) / 2)).1 * 2 ^ 64
          + (apply64 (2 ^ 64 - 1) b.cc b.d (bitlen (2 ^ 64 - 1) / 2)).2
        = ((2 ^ 64 - 1) * b.cc + b.d) / 2 ^ (bitlen (2 ^ 64 - 1) / 2) ∧
      collatz64 false (32 + 1) (2 ^ 64 - 1) =
        if ((2 ^ 64 - 1) * b.cc + b.d) / 2 ^ (bitlen (2 ^ 64 - 1) / 2) < 2 ^ 64 then
          (collatz64 false 32 (((2 ^ 64 - 1) * b.cc + b.d) / 2 ^ (bitlen (2 ^ 64 - 1) / 2))).map
            (fun c => u64 (b.ans + c))
        else
          (collatz128 false 32 (((2 ^ 64 - 1) * b.cc + b.d)
            / 2 ^ (bitlen (2 ^ 64 - 1) / 2))).map (fun c => u64 (b.ans + c)) :=
  ⟨⟨by decide, by decide, by decide!⟩,
    collatz64_apply_exact false 32 (2 ^ 64 - 1) (by decide) (by decide) (by decide!)⟩

/-- C11 as stated fails: both escalations pass on the shifted value.  For `n = 2^64 - 1` the
block of `collatz64` is `(C, D, A) = (3^32, 3^32 - 2^32, 64)` and `(n*C + D) >> 32` has more
than 64 bits; `collatz64` returns `863 = 64 + 799`, where 799 is `collatz128` of the shifted
value, while `collatz128` of the unshifted `n*C + D` is 831.  For the 128-bit value
`m = 340282366920938463450231943734333800447` the block of `collatz128` is
`(3^40, 3^40 - 2^40, 104)`, the shifted result has 128 bits, and `collatz128` returns
`989 = 104 + 885` with 885 the result of `fastest_collatz` on the shifted value; on the
unshifted value `fastest_collatz` gives 949. -/
theorem escalation_not_unshifted :
    (helper64 false 63 (2 ^ 64 - 1) 32 = some ⟨3 ^ 32 - 2 ^ 32, 3 ^ 32, 64⟩ ∧
      2 ^ 64 ≤ ((2 ^ 64 - 1) * 3 ^ 32 + (3 ^ 32 - 2 ^ 32)) / 2 ^ 32 ∧
      collatz64 false 64 (2 ^ 64 - 1) = some 863 ∧
      collatz128 false 63 (((2 ^ 64 - 1) * 3 ^ 32 + (3 ^ 32 - 2 ^ 32)) / 2 ^ 32) = some 799 ∧
      collatz128 false 63 ((2 ^ 64 - 1) * 3 ^ 32 + (3 ^ 32 - 2 ^ 32)) = some 831 ∧
      64 + 831 ≠ 863) ∧
    (helper128 false 63 340282366920938463450231943734333800447 64
        = some ⟨3 ^ 40 - 2 ^ 40, 3 ^ 40, 104⟩ ∧
      2 ^ 127 ≤
        (340282366920938463450231943734333800447 * 3 ^ 40 + (3 ^ 40 - 2 ^ 40)) / 2 ^ 64 ∧
      collatz128 false 64 340282366920938463450231943734333800447 = some 989 ∧
      fastest_collatz false 63
        ((340282366920938463450231943734333800447 * 3 ^ 40 + (3 ^ 40 - 2 ^ 40)) / 2 ^ 64)
          = some 885 ∧
      fastest_collatz false 63
        (340282366920938463450231943734333800447 * 3 ^ 40 + (3 ^ 40 - 2 ^ 40)) = some 949 ∧
      104 + 949 ≠ 989) := by
  decide!

/-- C11, amended: on an escalation the wider engine receives the shifted value.  When the
result `(n*C + D) >> k` of an apply step of `collatz64` has more than 64 bits, `collatz64`
returns `A` plus `collatz128` of `(n*C + D) >> k`; when the result `(m*C + D) >> k` of an
apply step of `collatz128` has 128 bits or more, `collatz128` returns `A` plus
`fastest_collatz` of `(m*C + D) >> k`.  Here `k` is half the bit length and `(C, D, A)` is
what the block function returned. -/
theorem escalation_passes_shifted_value (strip : Bool) (fuel n m : Nat) (b b' : Block)
    (h7 : 7 < n) (hn : n < 2 ^ 64)
    (hb : helper64 strip fuel (if strip = true then bzh64 n (bitlen n / 2) else n)
      (bitlen n / 2) = some b)
    (hov : 2 ^ 64 ≤ (n * b.cc + b.d) / 2 ^ (bitlen n / 2))
    (hm : m < 2 ^ 128) (hL : THRESHOLD64 ≤ bitlen m / 2)
    (hb' : helper128 strip fuel (if strip = true then bzh128 m (bitlen m / 2) else m)
      (bitlen m / 2) = some b')
    (hov' : 2 ^ 127 ≤ (m * b'.cc + b'.d) / 2 ^ (bitlen m / 2)) :
    ((64 - clz64 n) >>> 1 = bitlen n / 2 ∧
      collatz64 strip (fuel + 1) n =
        (collatz128 strip fuel ((n * b.cc + b.d) / 2 ^ (bitlen n / 2))).map
          (fun c => u64 (b.ans + c))) ∧
    ((128 - clz128 m) >>> 1 = bitlen m / 2 ∧
      collatz128 strip (fuel + 1) m =
        (fastest_collatz strip fuel ((m * b'.cc + b'.d) / 2 ^ (bitlen m / 2))).map
          (fun c => u64 (b'.ans + c))) := by
  obtain ⟨hk2, hk32⟩ := L2_bounds h7 hn
  have hbo := helper64_some strip hk2 (by omega) hb
  obtain ⟨hd, hc, _⟩ := blockOf_lt (bitlen n / 2)
    (if strip = true then bzh64 n (bitlen n / 2) else n) (by omega)
  rw [← hbo] at hd hc
  obtain ⟨hc', hd'⟩ := helper128_lt strip hb'
  refine ⟨⟨by rw [shiftRight_one, sub_clz64 hn], ?_⟩,
    ⟨by rw [shiftRight_one, sub_clz128 hm], ?_⟩⟩
  · rw [collatz64_iter strip fuel n b h7 hn hb hc hd, if_neg (by omega)]
  · rw [collatz128_step strip fuel m b' hm hL hb' hc' hd', if_pos hov']

theorem escalation_passes_shifted_value_witness :
    collatz64 false (63 + 1) (2 ^ 64 - 1) =
        (collatz128 false 63 (((2 ^ 64 - 1) * 3 ^ 32 + (3 ^ 32 - 2 ^ 32)) /
          2 ^ (bitlen (2 ^ 64 - 1) / 2))).map (fun c => u64 (64 + c)) ∧
      collatz128 false (63 + 1) 340282366920938463450231943734333800447 =
        (fastest_collatz false 63
          ((340282366920938463450231943734333800447 * 3 ^ 40 + (3 ^ 40 - 2 ^ 40)) /
            2 ^ (bitlen 340282366920938463450231943734333800447 / 2))).map
          (fun c => u64 (104 + c)) := by
  have h := escalation_passes_shifted_value false 63 (2 ^ 64 - 1)
    340282366920938463450231943734333800447 ⟨3 ^ 32 - 2 ^ 32, 3 ^ 32, 64⟩
    ⟨3 ^ 40 - 2 ^ 40, 3 ^ 40, 104⟩ (by decide!) (by decide!) (by decide!) (by decide!)
    (by decide!) (by decide!) (by decide!) (by decide!)
  have h1 := h.1.2
  have h2 := h.2.2
  dsimp only at h1 h2
  exact ⟨h1, h2⟩

/-- C12 as stated fails: for `n = 27`, of 5 bits, the block size is 2, `helper64` returns
`(C, D) = (9, 5)`, and the loop iteration produces `(27*9 + 5) >> 2 = 62`, of 6 bits. -/
theorem shrink_fails_at_27 :
    7 < 27 ∧ bitlen 27 = 5 ∧ (64 - clz64 27) >>> 1 = 2 ∧
      helper64 false 1 27 2 = some ⟨5, 9, 4⟩ ∧
      (27 * 9 + 5) >>> 2 = 62 ∧ bitlen 62 = 6 ∧ ¬ bitlen 62 < bitlen 27 := by
  decide

/-- C12, amended: for every `n > 7` in the 64-bit loop, with bit length `b`, `k = ⌊b/2⌋` and
`(C, D) = helper64(n, k)`, the value `v = (n*C + D) >> k` has bit length strictly less than
`b` whenever `2*C < 2^k`; it has at least `b - k` bits in every case, and it is larger than
`n` (so not shorter) whenever `C > 2^k`. -/
theorem shrink_when_multiplier_small (strip : Bool) (fuel n : Nat) (b : Block)
    (h7 : 7 < n) (hn : n < 2 ^ 64)
    (hb : helper64 strip fuel (if strip = true then bzh64 n (bitlen n / 2) else n)
      (bitlen n / 2) = some b) :
    (2 * b.cc < 2 ^ (bitlen n / 2) →
      bitlen ((n * b.cc + b.d) >>> (bitlen n / 2)) < bitlen n) ∧
    bitlen n - bitlen n / 2 ≤ bitlen ((n * b.cc + b.d) >>> (bitlen n / 2)) ∧
    (2 ^ (bitlen n / 2) < b.cc →
      n < (n * b.cc + b.d) >>> (bitlen n / 2) ∧
      bitlen n ≤ bitlen ((n * b.cc + b.d) >>> (bitlen n / 2))) := by
  obtain ⟨hk2, hk32⟩ := L2_bounds h7 hn
  have hbo := helper64_some strip hk2 (by omega) hb
  have hbn : b = blockOf (bitlen n / 2) n := by
    rw [hbo]
    split
    · rw [bzh64_eq_mod, blockOf_mod]
    · rfl
  have hv : (n * b.cc + b.d) >>> (bitlen n / 2) = Siter (bitlen n / 2) n := by
    rw [Nat.shiftRight_eq_div_pow, hbn, Siter_eq_div, Nat.mul_comm]
  rw [hv, hbn]
  refine ⟨fun hC => bitlen_Siter_lt n _ (by omega) (by omega) hC,
    bitlen_Siter_ge n _ (by omega), fun hC => ?_⟩
  have := Siter_gt n _ (by omega) hC
  exact ⟨this, bitlen_mono (le_of_lt this)⟩

theorem shrink_when_multiplier_small_witness :
    bitlen ((260 * 3 + 4) >>> (bitlen 260 / 2)) < bitlen 260 :=
  (shrink_when_multiplier_small false 1 260 ⟨4, 3, 5⟩ (by decide) (by decide) (by decide)).1
    (by decide)

/-- C13 as stated fails: for `k = 1` the returned count is 2 on an odd input and 1 on an
even one (not 1 and 0), for `helper128` and for the GMP `helper` alike. -/
theorem closed_form_count_differs :
    helper128 false 1 1 1 = some ⟨1, 3, 2⟩ ∧ helper false 1 1 1 = some ⟨1, 3, 2⟩ ∧
      helper128 false 1 2 1 = some ⟨0, 1, 1⟩ ∧ helper false 1 2 1 = some ⟨0, 1, 1⟩ := by
  decide

/-- C13, amended: for `k = 0` the block returned by `helper128` and by the GMP `helper` is the
identity, `C = 1`, `D = 0`, `A = 0`; for `k = 1` it is `C = 3`, `D = 1`, `A = 2` when the
low bit of the input is 1, and `C = 1`, `D = 0`, `A = 1` when the low bit is 0. -/
theorem smallest_blocks (strip : Bool) (fuel n : Nat) :
    helper128 strip (fuel + 1) n 0 = some ⟨0, 1, 0⟩ ∧
    helper strip (fuel + 1) n 0 = some ⟨0, 1, 0⟩ ∧
    helper128 strip (fuel + 1) n 1 = (if n % 2 = 1 then some ⟨1, 3, 2⟩ else some ⟨0, 1, 1⟩) ∧
    helper strip (fuel + 1) n 1 = (if n % 2 = 1 then some ⟨1, 3, 2⟩ else some ⟨0, 1, 1⟩) := by
  have h1 : n &&& 1 = n % 2 := and_mask_eq_mod n 1 1 rfl
  have h2 : mpz_get_ui n &&& 1 = n % 2 := by
    rw [and_mask_eq_mod _ 1 1 rfl]
    unfold mpz_get_ui u64
    exact Nat.mod_mod_of_dvd n (pow_dvd_pow 2 (by norm_num : 1 ≤ 64))
  refine ⟨rfl, rfl, ?_, ?_⟩
  · rw [helper128, if_pos (by decide), if_pos rfl]
    simp only [h1]
    rcases Nat.mod_two_eq_zero_or_one n with h | h <;> simp [h]
  · rw [helper, if_pos (by decide), if_pos (by decide), if_pos rfl]
    simp only [h2]
    rcases Nat.mod_two_eq_zero_or_one n with h | h <;> simp [h]

/-- C14: for every block size `k ≥ 40` (below `2^63`, so that the count `A ≤ 2k` fits the
`uint64_t` the function returns) and every `x`, in particular every `x < 2^k`, the GMP
`helper` returns the exact block transform: `cc*x + d = 2^k * S^k(x)`,
`A = k + (number of odd values among x, S x, ..., S^(k-1) x)`, `cc = 3^(A-k)`.  It is the
combination `C = C1*C2`, `D = D1*C2 + D2*2^k1`, `A = A1 + A2` of the blocks of its two
sub-calls for `k1 = k >> 1` and `k2 = k - k1`, and sizes below 40 are handed to `helper128`
and, below 20, to `helper64`.  The low product `mpz_mullo` is taken to be the product
modulo `2^k`. -/
theorem helper_exact (strip : Bool) (k fuel x : Nat) (h40 : 40 ≤ k) (h63 : k < 2 ^ 63)
    (hf : k + 2 ≤ fuel) :
    ∃ b b1 b2, helper strip (fuel + 1) x k = some b ∧
      b.cc * x + b.d = 2 ^ k * Siter k x ∧
      b.ans = k + oddCount k x ∧
      b.cc = 3 ^ (b.ans - k) ∧
      helper strip fuel (x % 2 ^ (k >>> 1)) (k >>> 1) = some b1 ∧
      helper strip fuel
        (((mpz_mullo k x b1.cc + b1.d) / 2 ^ (k >>> 1)) % 2 ^ (k - k >>> 1))
        (k - k >>> 1) = some b2 ∧
      b = ⟨b1.d * b2.cc + b2.d * 2 ^ (k >>> 1), b1.cc * b2.cc, b1.ans + b2.ans⟩ ∧
      (∀ j y, 20 ≤ j → j < 40 →
        helper strip (fuel + 1) y j = helper128 strip fuel (mpz_get_ui128 y) j) ∧
      (∀ j y, 2 ≤ j → j < 20 →
        helper strip (fuel + 1) y j = helper64 strip fuel (mpz_get_ui y) j) := by
  have hk1 : k >>> 1 = k / 2 := shiftRight_one k
  have hsum : k / 2 + (k - k / 2) = k := by omega
  have e1 : helper strip fuel (x % 2 ^ (k / 2)) (k / 2) = some (blockOf (k / 2) x) := by
    rw [helper_eq_blockOf strip (k / 2) (by omega) fuel _ (by omega), blockOf_mod]
  have harg := mullo_arg_mod x (k / 2) (k - k / 2)
  rw [hsum] at harg
  have e2 : helper strip fuel
      (((mpz_mullo k x (blockOf (k / 2) x).cc + (blockOf (k / 2) x).d) / 2 ^ (k / 2))
        % 2 ^ (k - k / 2)) (k - k / 2) = some (blockOf (k - k / 2) (Siter (k / 2) x)) := by
    rw [helper_eq_blockOf strip (k - k / 2) (by omega) fuel _ (by omega), blockOf_congr harg]
  have hadd := blockOf_add (k / 2) (k - k / 2) x
  rw [hsum] at hadd
  refine ⟨blockOf k x, blockOf (k / 2) x, blockOf (k - k / 2) (Siter (k / 2) x),
    helper_eq_blockOf strip k h63 _ x (by omega), blockOf_eq k x, blockOf_ans k x, ?_,
    by rw [hk1]; exact e1, by rw [hk1]; exact e2, by rw [hk1]; exact hadd, ?_, ?_⟩
  · rw [blockOf_ans, Nat.add_sub_cancel_left, blockOf_cc]
  · intro j y h20 hj
    rw [helper, if_pos (by unfold THRESHOLD128; exact hj),
      if_neg (by unfold THRESHOLD64; omega)]
  · intro j y h2 hj
    rw [helper, if_pos (by unfold THRESHOLD128; omega),
      if_pos (by unfold THRESHOLD64; exact hj), if_neg (by omega), if_neg (by omega)]

theorem helper_exact_witness :
    ∃ b b1 b2, helper false (42 + 1) 1 40 = some b ∧
      b.cc * 1 + b.d = 2 ^ 40 * Siter 40 1 ∧
      b.ans = 40 + oddCount 40 1 ∧
      b.cc = 3 ^ (b.ans - 40) ∧
      helper false 42 (1 % 2 ^ (40 >>> 1)) (40 >>> 1) = some b1 ∧
      helper false 42
        (((mpz_mullo 40 1 b1.cc + b1.d) / 2 ^ (40 >>> 1)) % 2 ^ (40 - 40 >>> 1))
        (40 - 40 >>> 1) = some b2 ∧
      b = ⟨b1.d * b2.cc + b2.d * 2 ^ (40 >>> 1), b1.cc * b2.cc, b1.ans + b2.ans⟩ ∧
      (∀ j y, 20 ≤ j → j < 40 →
        helper false (42 + 1) y j = helper128 false 42 (mpz_get_ui128 y) j) ∧
      (∀ j y, 2 ≤ j → j < 20 →
        helper false (42 + 1) y j = helper64 false 42 (mpz_get_ui y) j) :=
  helper_exact false 40 42 1 (by decide) (by decide) (by decide)

/-- C15: the recursion of the block computation is well founded and shallow.  For every
`k ≥ 2`, `helper64(x, k)` returns, with recursion depth at most `⌈log₂ k⌉`; for `k ≥ 8` both
sub-block sizes `k >> 1` and `k - (k >> 1)` are at least 4 and less than `k`.  For the sizes
0 and 1 `helper64` has no base case and never returns, and these sizes are never requested:
the size passed by `collatz64` is at least 2 for every `n > 7`, `helper128` and `helper`
answer the sizes 0 and 1 themselves and pass the sizes from 2 to 19 on to `helper64`, and
they return for every size. -/
theorem helper64_terminates (strip : Bool) (k fuel x : Nat) (h2 : 2 ≤ k)
    (hf : Nat.clog 2 k ≤ fuel) :
    (helper64 strip fuel x k).isSome = true ∧
    (8 ≤ k → 4 ≤ k >>> 1 ∧ k >>> 1 < k ∧ 4 ≤ k - k >>> 1 ∧ k - k >>> 1 < k) ∧
    (∀ f y, helper64 strip f y 0 = none ∧ helper64 strip f y 1 = none) ∧
    (∀ n, 7 < n → n < 2 ^ 64 → 2 ≤ (64 - clz64 n) >>> 1) ∧
    (∀ f y j, j < 2 →
      (helper128 strip (f + 1) y j).isSome = true ∧ (helper strip (f + 1) y j).isSome = true) ∧
    (∀ f y j, 2 ≤ j → j < THRESHOLD64 →
      helper128 strip (f + 1) y j = helper64 strip f (u64 y) j ∧
      helper strip (f + 1) y j = helper64 strip f (mpz_get_ui y) j) ∧
    (∀ f y j, Nat.clog 2 j + 2 ≤ f →
      (helper128 strip f y j).isSome = true ∧ (helper strip f y j).isSome = true) := by
  have hk1 : k >>> 1 = k / 2 := shiftRight_one k
  refine ⟨helper64_isSome strip k h2 fuel x hf, ?_,
    fun f y => ⟨helper64_none strip f y 0 (by decide), helper64_none strip f y 1 (by decide)⟩,
    ?_, ?_, ?_, ?_⟩
  · intro h8
    rw [hk1]; omega
  · intro n h7 hn
    rw [shiftRight_one, sub_clz64 hn]
    exact (L2_bounds h7 hn).1
  · intro f y j hj
    obtain rfl | rfl : j = 0 ∨ j = 1 := by omega
    · exact ⟨rfl, rfl⟩
    · exact ⟨rfl, rfl⟩
  · intro f y j h2j hj
    have hj' : j < 20 := hj
    constructor
    · rw [helper128, if_pos hj, if_neg (by omega), if_neg (by omega)]
    · rw [helper, if_pos (by unfold THRESHOLD128; omega), if_pos hj, if_neg (by omega),
        if_neg (by omega)]
  · intro f y j hfj
    exact ⟨helper128_isSome strip j f y (by omega), helper_isSome strip j f y hfj⟩

theorem helper64_terminates_witness :
    (helper64 false 5 12345678901 32).isSome = true :=
  (helper64_terminates false 32 5 12345678901 (by decide)
    ((Nat.le_pow_iff_clog_le (by decide)).1 (by decide))).1

/-- C16: `fastest_collatz(0)` returns 0.  The block size is 0 in `fastest_collatz`
(`mpz_sizeinbase(0, 2) = 1`) and in `collatz128`, so neither loop runs, the loop of
`collatz64` does not run either (`0 > 7` is false), and the result is `table_a[0] = 0`. -/
theorem fastest_collatz_zero (strip : Bool) (fuel : Nat) :
    fastest_collatz strip (fuel + 3) 0 = some 0 ∧
    mpz_sizeinbase2 0 >>> 1 = 0 ∧
    (128 - clz128 (mpz_get_ui128 0)) >>> 1 = 0 ∧
    u64 (mpz_get_ui128 0) = 0 ∧
    table_a.getD 0 0 = 0 ∧
    fastest_collatz strip (fuel + 3) 0 = collatz128 strip (fuel + 2) (mpz_get_ui128 0) ∧
    collatz128 strip (fuel + 2) (mpz_get_ui128 0)
      = collatz64 strip (fuel + 1) (u64 (mpz_get_ui128 0)) ∧
    collatz64 strip (fuel + 1) (u64 (mpz_get_ui128 0)) = some (table_a.getD 0 0) := by
  have h3 : fastest_collatz strip 3 0 = some 0 := by cases strip <;> decide
  have h0 : fastest_collatz strip (fuel + 3) 0 = some 0 :=
    mono_le (fun f => (loops_mono strip f).1) (Nat.le_add_left 3 fuel) h3
  refine ⟨h0, by decide, by decide, by decide, by decide, rfl, rfl, rfl⟩

/-- C17: a block never steps past 1.  For every `n ≥ 8` with bit length `b`, `k = ⌊b/2⌋` and
exact block `(C, D, A)` of `(n, k)`: every value `T^i(n)` for `i ≤ A`, that is every value
of the trajectory up to and including the `k`-th halving, is at least `2^(k-1) ≥ 2`; the
`A`-th value is `(n*C + D) >> k`; and `n` reaches 1 after `c` steps exactly when `c ≥ A`
and `(n*C + D) >> k` reaches 1 after `c - A` steps.  The number `k` is the block size of
each of the three loops (arbitrary precision, 128-bit, 64-bit) on the value `n`. -/
theorem block_never_passes_one (n : Nat) (h8 : 8 ≤ n) :
    2 ≤ 2 ^ (bitlen n / 2 - 1) ∧
    (∀ i, i ≤ (blockOf (bitlen n / 2) n).ans → 2 ^ (bitlen n / 2 - 1) ≤ T^[i] n) ∧
    T^[(blockOf (bitlen n / 2) n).ans] n
      = (n * (blockOf (bitlen n / 2) n).cc + (blockOf (bitlen n / 2) n).d)
          >>> (bitlen n / 2) ∧
    (∀ c, StepsTo n c ↔ ((blockOf (bitlen n / 2) n).ans ≤ c ∧
      StepsTo ((n * (blockOf (bitlen n / 2) n).cc + (blockOf (bitlen n / 2) n).d)
          >>> (bitlen n / 2)) (c - (blockOf (bitlen n / 2) n).ans))) ∧
    (∀ c, StepsTo ((n * (blockOf (bitlen n / 2) n).cc + (blockOf (bitlen n / 2) n).d)
          >>> (bitlen n / 2)) c → StepsTo n ((blockOf (bitlen n / 2) n).ans + c)) ∧
    mpz_sizeinbase2 n >>> 1 = bitlen n / 2 ∧
    (n < 2 ^ 128 → (128 - clz128 n) >>> 1 = bitlen n / 2) ∧
    (n < 2 ^ 64 → (64 - clz64 n) >>> 1 = bitlen n / 2) := by
  have hb : 3 < bitlen n := lt_bitlen_of_le (by norm_num; omega)
  have h2 : 2 ≤ 2 ^ (bitlen n / 2 - 1) := by
    calc 2 = 2 ^ 1 := rfl
      _ ≤ 2 ^ (bitlen n / 2 - 1) := Nat.pow_le_pow_right (by norm_num) (by omega)
  have hS : ∀ j, j ≤ bitlen n / 2 → 2 ^ (bitlen n / 2 - 1) ≤ Siter j n :=
    fun j hj => Siter_ge_half n j (by omega) hj
  have hT := iterate_T_ge (2 ^ (bitlen n / 2 - 1)) (bitlen n / 2) n hS
  have hv : (n * (blockOf (bitlen n / 2) n).cc + (blockOf (bitlen n / 2) n).d)
      >>> (bitlen n / 2) = Siter (bitlen n / 2) n := by
    rw [Nat.shiftRight_eq_div_pow, Siter_eq_div, Nat.mul_comm]
  have hiff : ∀ c, StepsTo n c ↔ ((blockOf (bitlen n / 2) n).ans ≤ c ∧
      StepsTo (Siter (bitlen n / 2) n) (c - (blockOf (bitlen n / 2) n).ans)) := by
    intro c
    have := stepsTo_iterate (blockOf (bitlen n / 2) n).ans n c (fun i hi => by
      have := hT i (by rw [blockOf_ans] at hi; omega)
      omega)
    rw [blockOf_ans] at this ⊢
    rw [iterate_T_block] at this
    exact this
  rw [hv]
  refine ⟨h2, fun i hi => hT i (by rw [blockOf_ans] at hi; exact hi),
    by rw [blockOf_ans]; exact iterate_T_block _ n, hiff, fun c hc => ?_, ?_, ?_, ?_⟩
  · exact (hiff _).2 ⟨Nat.le_add_right _ _, by rw [Nat.add_sub_cancel_left]; exact hc⟩
  · unfold mpz_sizeinbase2
    rw [if_neg (by omega), shiftRight_one]
  · intro hn; rw [shiftRight_one, sub_clz128 hn]
  · intro hn; rw [shiftRight_one, sub_clz64 hn]

theorem block_never_passes_one_witness :
    8 ≤ 27 ∧ (∀ i, i ≤ (blockOf (bitlen 27 / 2) 27).ans → 2 ^ (bitlen 27 / 2 - 1) ≤ T^[i] 27) :=
  ⟨by decide, (block_never_passes_one 27 (by decide)).2.1⟩

/-- C18: the native branch of `collatz128` never overflows.  Whenever the guard
`clz128(n) + clz64(cc) < 128` is false, for a 128-bit `n` and 64-bit `cc`, `d`, the product
`n*cc` fits 64 bits and `n*cc + d < 2^128`, so `n *= cc; n += d; n >>= L2` in 128-bit
arithmetic gives exactly `⌊(n*cc + d) / 2^L2⌋`, which is the value `collatz128` continues
with. -/
theorem native_apply_exact (n cc d L2 : Nat) (hn : n < 2 ^ 128) (hc : cc < 2 ^ 64)
    (hd : d < 2 ^ 64) (hg : ¬ clz128 n + clz64 cc < 128) :
    n * cc + d < 2 ^ 128 ∧
    u128 (n * cc) = n * cc ∧
    u128 (u128 (n * cc) + d) = n * cc + d ∧
    u128 (u128 (n * cc) + d) >>> L2 = (n * cc + d) / 2 ^ L2 ∧
    (∀ strip fuel ans, THRESHOLD64 ≤ bitlen n / 2 →
      helper128 strip fuel (if strip = true then bzh128 n (bitlen n / 2) else n)
        (bitlen n / 2) = some ⟨d, cc, ans⟩ →
      collatz128 strip (fuel + 1) n =
        (collatz128 strip fuel (u128 (u128 (n * cc) + d) >>> (bitlen n / 2))).map
          (fun c => u64 (ans + c))) := by
  obtain ⟨h64, h128⟩ := no_overflow_of_not_guard hn hc hd hg
  have h128' : n * cc < 2 ^ 128 := by omega
  have e1 : u128 (n * cc) = n * cc := u128_of_lt h128'
  have e2 : u128 (u128 (n * cc) + d) = n * cc + d := by rw [e1, u128_of_lt h128]
  refine ⟨h128, e1, e2, by rw [e2, Nat.shiftRight_eq_div_pow], ?_⟩
  intro strip fuel ans hL hb
  have hsmall : ¬ 2 ^ 127 ≤ (n * cc + d) / 2 ^ (bitlen n / 2) := by
    have h1 : (n * cc + d) / 2 ^ (bitlen n / 2) ≤ n * cc + d := Nat.div_le_self _ _
    have e : (2 : Nat) ^ 64 + 2 ^ 64 ≤ 2 ^ 127 := by norm_num
    omega
  rw [collatz128_step strip fuel n ⟨d, cc, ans⟩ hn hL hb hc hd, if_neg hsmall, e2,
    Nat.shiftRight_eq_div_pow]

theorem native_apply_exact_witness :
    u128 (u128 (2 ^ 40 * 3) + 1) >>> 20 = (2 ^ 40 * 3 + 1) / 2 ^ 20 :=
  (native_apply_exact (2 ^ 40) 3 1 20 (by decide) (by decide) (by decide) (by decide)).2.2.2.1

/-- C19, refuted on the code: the guard sends to the GMP branch products that do not
overflow.  On the input `2^64 - 1` the function `fastest_collatz` goes to `collatz128` at
once; there the block size is 32, `helper128` returns `cc = 3^32`, `d = 3^32 - 2^32`, the
guard `clz128(n) + clz64(cc) < 128` holds (`64 + 13 = 77`), and `n*cc + d` is below `2^115`. -/
theorem gmp_branch_without_overflow :
    mpz_sizeinbase2 (2 ^ 64 - 1) >>> 1 < THRESHOLD128 ∧
    (128 - clz128 (2 ^ 64 - 1)) >>> 1 = 32 ∧
    helper128 false 7 (2 ^ 64 - 1) 32 = some ⟨3 ^ 32 - 2 ^ 32, 3 ^ 32, 64⟩ ∧
    clz128 (2 ^ 64 - 1) = 64 ∧ clz64 (3 ^ 32) = 13 ∧
    clz128 (2 ^ 64 - 1) + clz64 (3 ^ 32) < 128 ∧
    (2 ^ 64 - 1) * 3 ^ 32 + (3 ^ 32 - 2 ^ 32) < 2 ^ 115 ∧
    ¬ (2 ^ 64 - 1) * 3 ^ 32 + (3 ^ 32 - 2 ^ 32) ≥ 2 ^ 128 := by
  decide!

/-- C20: size bounds that keep the 64-bit arithmetic of `helper64` exact.  For `2 ≤ k ≤ 32`
and every `x`, the triple `(C, D, A)` returned by `helper64(x, k)` has `1 ≤ C ≤ 3^k`,
`D ≤ 3^k - 2^k`, `k ≤ A ≤ 2k`, and `3^k < 2^64`; it is the exact block,
`C*x + D = 2^k * S^k(x)`.  For `k ≥ 8`, with `(C1, D1, A1)` and `(C2, D2, A2)` the results
of the two sub-calls, `C1*C2`, `D2 << k1` and `D1*C2 + (D2 << k1)` are below `2^64`, and
they are the returned `C` and `D`: nothing is reduced modulo `2^64`. -/
theorem helper64_size_bounds (strip : Bool) (k fuel x : Nat) (h2 : 2 ≤ k) (h32 : k ≤ 32)
    (hf : k ≤ fuel + 1) :
    ∃ b, helper64 strip (fuel + 1) x k = some b ∧
      1 ≤ b.cc ∧ b.cc ≤ 3 ^ k ∧ b.d ≤ 3 ^ k - 2 ^ k ∧ k ≤ b.ans ∧ b.ans ≤ 2 * k ∧
      3 ^ k < 2 ^ 64 ∧ b.cc * x + b.d = 2 ^ k * Siter k x ∧
      (8 ≤ k → ∃ b1 b2,
        helper64 strip fuel (if strip = true then bzh64 x (k >>> 1) else x) (k >>> 1)
          = some b1 ∧
        helper64 strip fuel
          (if strip = true then bzh64 (u64 (x * b1.cc + b1.d) >>> (k >>> 1)) (k - k >>> 1)
            else u64 (x * b1.cc + b1.d) >>> (k >>> 1)) (k - k >>> 1) = some b2 ∧
        b1.cc * b2.cc < 2 ^ 64 ∧ b2.d <<< (k >>> 1) < 2 ^ 64 ∧
        b1.d * b2.cc + b2.d <<< (k >>> 1) < 2 ^ 64 ∧
        b.cc = b1.cc * b2.cc ∧ b.d = b1.d * b2.cc + b2.d <<< (k >>> 1) ∧
        b.ans = b1.ans + b2.ans) := by
  have hcc := blockOf_cc_le k x
  have hpos := blockOf_cc_pos k x
  have hd := blockOf_d_le k x
  have ha := blockOf_ans k x
  have ho := oddCount_le k x
  have h3 : 3 ^ k < 2 ^ 64 :=
    lt_of_le_of_lt (Nat.pow_le_pow_right (by norm_num) (by omega : k ≤ 40)) three_pow_40_lt
  have hp := Nat.two_pow_pos k
  have hdlt : (blockOf k x).d < 2 ^ 64 := by omega
  have hclt : (blockOf k x).cc < 2 ^ 64 := by omega
  refine ⟨blockOf k x, helper64_eq_blockOf strip k h2 (by omega) _ x hf, hpos, hcc,
    by omega, by omega, by omega, h3, blockOf_eq k x, ?_⟩
  intro h8
  have hk1 : k >>> 1 = k / 2 := shiftRight_one k
  have hsum : k / 2 + (k - k / 2) = k := by omega
  have e1 : helper64 strip fuel (if strip = true then bzh64 x (k / 2) else x) (k / 2)
      = some (blockOf (k / 2) x) := by
    rw [helper64_eq_blockOf strip (k / 2) (by omega) (by omega) fuel _ (by omega)]
    split
    · rw [bzh64_eq_mod, blockOf_mod]
    · rfl
  have harg : (u64 (x * (blockOf (k / 2) x).cc + (blockOf (k / 2) x).d) >>> (k / 2))
      % 2 ^ (k - k / 2) = Siter (k / 2) x % 2 ^ (k - k / 2) :=
    second_arg_mod 64 x (k / 2) (k - k / 2) (by omega)
  have e2 : helper64 strip fuel
      (if strip = true then
        bzh64 (u64 (x * (blockOf (k / 2) x).cc + (blockOf (k / 2) x).d) >>> (k / 2)) (k - k / 2)
      else u64 (x * (blockOf (k / 2) x).cc + (blockOf (k / 2) x).d) >>> (k / 2)) (k - k / 2)
      = some (blockOf (k - k / 2) (Siter (k / 2) x)) := by
    rw [helper64_eq_blockOf strip (k - k / 2) (by omega) (by omega) fuel _ (by omega)]
    split
    · rw [bzh64_eq_mod, blockOf_mod, blockOf_congr harg]
    · rw [blockOf_congr harg]
  have hadd := blockOf_add (k / 2) (k - k / 2) x
  rw [hsum] at hadd
  have hshl : (blockOf (k - k / 2) (Siter (k / 2) x)).d <<< (k / 2)
      = (blockOf (k - k / 2) (Siter (k / 2) x)).d * 2 ^ (k / 2) := Nat.shiftLeft_eq _ _
  have hdk : (blockOf k x).d = (blockOf (k / 2) x).d * (blockOf (k - k / 2) (Siter (k / 2) x)).cc
      + (blockOf (k - k / 2) (Siter (k / 2) x)).d * 2 ^ (k / 2) := by rw [hadd]
  have hck : (blockOf k x).cc
      = (blockOf (k / 2) x).cc * (blockOf (k - k / 2) (Siter (k / 2) x)).cc := by rw [hadd]
  have hak : (blockOf k x).ans
      = (blockOf (k / 2) x).ans + (blockOf (k - k / 2) (Siter (k / 2) x)).ans := by rw [hadd]
  rw [hk1]
  refine ⟨blockOf (k / 2) x, blockOf (k - k / 2) (Siter (k / 2) x), e1, e2, ?_, ?_, ?_,
    hck, by rw [hshl]; exact hdk, hak⟩
  · rw [← hck]; exact hclt
  · rw [hshl]; exact lt_of_le_of_lt (by rw [hdk]; exact Nat.le_add_left _ _) hdlt
  · rw [hshl, ← hdk]; exact hdlt

theorem helper64_size_bounds_witness :
    ∃ b, helper64 false (31 + 1) 4294967295 32 = some b ∧
      1 ≤ b.cc ∧ b.cc ≤ 3 ^ 32 ∧ b.d ≤ 3 ^ 32 - 2 ^ 32 ∧ 32 ≤ b.ans ∧ b.ans ≤ 2 * 32 ∧
      3 ^ 32 < 2 ^ 64 ∧ b.cc * 4294967295 + b.d = 2 ^ 32 * Siter 32 4294967295 ∧
      (8 ≤ 32 → ∃ b1 b2,
        helper64 false 31 (if false = true then bzh64 4294967295 (32 >>> 1) else 4294967295)
          (32 >>> 1) = some b1 ∧
        helper64 false 31
          (if false = true then
            bzh64 (u64 (4294967295 * b1.cc + b1.d) >>> (32 >>> 1)) (32 - 32 >>> 1)
            else u64 (4294967295 * b1.cc + b1.d) >>> (32 >>> 1)) (32 - 32 >>> 1) = some b2 ∧
        b1.cc * b2.cc < 2 ^ 64 ∧ b2.d <<< (32 >>> 1) < 2 ^ 64 ∧
        b1.d * b2.cc + b2.d <<< (32 >>> 1) < 2 ^ 64 ∧
        b.cc = b1.cc * b2.cc ∧ b.d = b1.d * b2.cc + b2.d <<< (32 >>> 1) ∧
        b.ans = b1.ans + b2.ans) :=
  helper64_size_bounds false 32 31 4294967295 (by decide) (by decide) (by decide)

end Collatz
